import Mathlib

/-!
# Verification of the skill-management engine

A shallow embedding, over `List Char` strings, of the path validator,
file-tree listing and mutation operations, skill grouping, and the
marketplace import guard of the SkillsYoga repository
(`src/components/SkillEditorDialog.tsx`, `src/views/SkillsView.tsx`,
`src/views/MarketplaceView.tsx`), together with proofs of the claimed
properties.
-/

/-! ## JavaScript string primitives, modelled on `List Char` -/

/-- A JavaScript string, modelled as its list of characters. -/
abbrev JStr := List Char

/-- JavaScript `String.prototype.trim`: drop whitespace from both ends. -/
def jsTrim (s : JStr) : JStr :=
  ((s.dropWhile Char.isWhitespace).reverse.dropWhile Char.isWhitespace).reverse

/-- JavaScript `s.split("\\").join("/")`: replace every backslash by a slash. -/
def jsBackslashToSlash (s : JStr) : JStr :=
  s.map (fun c => if c = '\\' then '/' else c)

/-- JavaScript `s.replace(/^\/+/, "")`: drop every leading slash. -/
def jsDropLeadingSlashes (s : JStr) : JStr :=
  s.dropWhile (fun c => c = '/')

/-- JavaScript `s.includes(pat)`: substring containment. -/
def jsIncludes (pat s : JStr) : Bool :=
  s.tails.any (fun t => pat.isPrefixOf t)

/-- JavaScript `s.split("/")`. -/
def jsSegments (s : JStr) : List JStr :=
  s.splitOn '/'

/-- JavaScript `parts.join("/")`. -/
def jsJoinSlash (L : List JStr) : JStr :=
  List.intercalate ['/'] L

/-- JavaScript `s.toLowerCase()` (ASCII model). -/
def jsToLower (s : JStr) : JStr :=
  s.map Char.toLower

/-! ## The path validator (`normalizeRelativePath`, SkillEditorDialog.tsx 107-112) -/

/-- `normalizeRelativePath` from `SkillEditorDialog.tsx`:
trim, normalize backslashes to slashes, strip leading slashes, reject the
empty result and any string containing `".."`, then drop empty segments. -/
def jsTrimmedInput (input : JStr) : JStr :=
  jsDropLeadingSlashes (jsBackslashToSlash (jsTrim input))

def normalizeRelativePath (input : JStr) : Option JStr :=
  if jsTrimmedInput input = [] then none
  else if jsIncludes ['.', '.'] (jsTrimmedInput input) then none
  else some (jsJoinSlash ((jsSegments (jsTrimmedInput input)).filter (fun seg => seg ≠ [])))

/-- `ensureMarkdownPath` from `SkillEditorDialog.tsx` (lines 114-119):
normalize, then append `".md"` unless the lowercased result already ends
with it. -/
def ensureMarkdownPath (input : JStr) : Option JStr :=
  match normalizeRelativePath input with
  | none => none
  | some normalized =>
    if (['.', 'm', 'd']).isSuffixOf (jsToLower normalized) then some normalized
    else some (normalized ++ ['.', 'm', 'd'])

/-! ## Basic string lemmas -/

theorem jsIncludes_iff_infix (pat s : JStr) : jsIncludes pat s = true ↔ pat <:+: s := by
  unfold jsIncludes
  rw [List.any_eq_true]
  constructor
  · rintro ⟨t, ht, hpre⟩
    rw [List.mem_tails] at ht
    rw [List.isPrefixOf_iff_prefix] at hpre
    exact List.infix_iff_prefix_suffix.mpr ⟨t, hpre, ht⟩
  · intro h
    obtain ⟨t, hpre, hsuf⟩ := List.infix_iff_prefix_suffix.mp h
    exact ⟨t, (List.mem_tails t s).mpr hsuf, List.isPrefixOf_iff_prefix.mpr hpre⟩

theorem infix_dropWhile_of_not {P : Char → Bool} {pat l : JStr}
    (hne : pat ≠ []) (hpat : ∀ a ∈ pat, P a = false) (h : pat <:+: l) :
    pat <:+: l.dropWhile P := by
  induction l with
  | nil =>
    exact absurd (List.eq_nil_of_infix_nil h) hne
  | cons a l ih =>
    by_cases hPa : P a = true
    · rw [List.dropWhile_cons_of_pos hPa]
      rcases List.infix_cons_iff.mp h with hpre | hinf
      · rcases hpre with ⟨t, ht⟩
        cases pat with
        | nil => exact absurd rfl hne
        | cons b pat =>
          have hb : b = a := by
            have := congrArg (fun x => x.head?) ht
            simpa using this
          have := hpat b (List.mem_cons_self b pat)
          rw [hb] at this
          rw [this] at hPa
          exact absurd hPa (by simp)
      · exact ih hinf
    · rw [List.dropWhile_cons_of_neg hPa]
      exact h

theorem infix_jsTrim_of_not_ws {pat l : JStr}
    (hne : pat ≠ []) (hpat : ∀ a ∈ pat, Char.isWhitespace a = false) (h : pat <:+: l) :
    pat <:+: jsTrim l := by
  unfold jsTrim
  have h1 : pat <:+: l.dropWhile Char.isWhitespace :=
    infix_dropWhile_of_not hne hpat h
  have h2 : pat.reverse <:+: (l.dropWhile Char.isWhitespace).reverse :=
    List.reverse_infix.mpr h1
  have h3 : pat.reverse <:+: ((l.dropWhile Char.isWhitespace).reverse.dropWhile Char.isWhitespace) := by
    refine infix_dropWhile_of_not ?_ ?_ h2
    · simpa using hne
    · intro a ha
      exact hpat a (List.mem_reverse.mp ha)
  simpa using List.reverse_infix.mpr h3

/-! ## Lemmas about `splitOn` and `intercalate` -/

theorem splitOn_cons (c a : Char) (s : JStr) :
    (a :: s).splitOn c =
      if a = c then [] :: s.splitOn c else (s.splitOn c).modifyHead (List.cons a) := by
  simp only [List.splitOn, List.splitOnP_cons]
  by_cases h : a = c
  · simp [h]
  · simp [h]

theorem intercalate_nil' (sep : JStr) : List.intercalate sep ([] : List JStr) = [] := by
  simp [List.intercalate]

theorem intercalate_single (sep : JStr) (x : JStr) : List.intercalate sep [x] = x := by
  simp [List.intercalate]

theorem intercalate_cons₂ (sep x y : JStr) (t : List JStr) :
    List.intercalate sep (x :: y :: t) = x ++ sep ++ List.intercalate sep (y :: t) := by
  simp [List.intercalate, List.intersperse]

theorem not_mem_of_mem_splitOn {c : Char} {s seg : JStr} (h : seg ∈ s.splitOn c) : c ∉ seg := by
  induction s generalizing seg with
  | nil =>
    rw [List.splitOn_nil] at h
    simp only [List.mem_singleton] at h
    subst h
    simp
  | cons a s ih =>
    rw [splitOn_cons] at h
    by_cases hac : a = c
    · rw [if_pos hac] at h
      rcases List.mem_cons.mp h with h | h
      · subst h; simp
      · exact ih h
    · rw [if_neg hac] at h
      obtain ⟨h0, t0, hsplit⟩ : ∃ h0 t0, s.splitOn c = h0 :: t0 := by
        cases hs : s.splitOn c with
        | nil => exact absurd hs (List.splitOnP_ne_nil _ s)
        | cons h0 t0 => exact ⟨h0, t0, rfl⟩
      rw [hsplit, List.modifyHead_cons] at h
      rcases List.mem_cons.mp h with h | h
      · subst h
        intro hmem
        rcases List.mem_cons.mp hmem with h | h
        · exact hac h.symm
        · exact ih (by rw [hsplit]; exact List.mem_cons_self h0 t0) h
      · exact ih (by rw [hsplit]; exact List.mem_cons.mpr (Or.inr h))

theorem head_splitOn_prefix {c : Char} {s h0 : JStr} {t0 : List JStr}
    (h : s.splitOn c = h0 :: t0) : h0 <+: s := by
  induction s generalizing h0 t0 with
  | nil =>
    rw [List.splitOn_nil] at h
    cases h
    exact List.nil_prefix
  | cons a s ih =>
    rw [splitOn_cons] at h
    by_cases hac : a = c
    · rw [if_pos hac] at h
      cases h
      exact List.nil_prefix
    · rw [if_neg hac] at h
      obtain ⟨h1, t1, hsplit⟩ : ∃ h1 t1, s.splitOn c = h1 :: t1 := by
        cases hs : s.splitOn c with
        | nil => exact absurd hs (List.splitOnP_ne_nil _ s)
        | cons h1 t1 => exact ⟨h1, t1, rfl⟩
      rw [hsplit, List.modifyHead_cons] at h
      cases h
      obtain ⟨t, ht⟩ := ih hsplit
      exact ⟨t, by rw [List.cons_append, ht]⟩

theorem infix_of_mem_splitOn {c : Char} {s seg : JStr} (h : seg ∈ s.splitOn c) : seg <:+: s := by
  induction s with
  | nil =>
    rw [List.splitOn_nil] at h
    simp only [List.mem_singleton] at h
    subst h
    exact List.infix_rfl
  | cons a s ih =>
    rw [splitOn_cons] at h
    by_cases hac : a = c
    · rw [if_pos hac] at h
      rcases List.mem_cons.mp h with h | h
      · subst h; exact List.nil_infix
      · exact List.infix_cons (ih h)
    · rw [if_neg hac] at h
      obtain ⟨h0, t0, hsplit⟩ : ∃ h0 t0, s.splitOn c = h0 :: t0 := by
        cases hs : s.splitOn c with
        | nil => exact absurd hs (List.splitOnP_ne_nil _ s)
        | cons h0 t0 => exact ⟨h0, t0, rfl⟩
      rw [hsplit, List.modifyHead_cons] at h
      rcases List.mem_cons.mp h with h | h
      · subst h
        obtain ⟨t, ht⟩ := head_splitOn_prefix hsplit
        exact List.IsPrefix.isInfix ⟨t, by rw [List.cons_append, ht]⟩
      · exact List.infix_cons (ih (hsplit ▸ List.mem_cons.mpr (Or.inr h)))

theorem splitOn_append_no_sep {c : Char} {m : JStr} (s : JStr) (hm : c ∉ m) :
    ∃ I lastSeg, s.splitOn c = I ++ [lastSeg] ∧ (s ++ m).splitOn c = I ++ [lastSeg ++ m] := by
  induction s with
  | nil =>
    refine ⟨[], [], ?_, ?_⟩
    · rw [List.splitOn_nil]; rfl
    · rw [List.nil_append]
      have : List.splitOnP (· == c) m = [m] := by
        refine List.splitOnP_eq_single _ _ ?_
        intro x hx hbeq
        rw [show x = c by simpa using hbeq] at hx
        exact hm hx
      simpa [List.splitOn] using this
  | cons a s ih =>
    obtain ⟨I, lastSeg, h1, h2⟩ := ih
    by_cases hac : a = c
    · refine ⟨[] :: I, lastSeg, ?_, ?_⟩
      · rw [splitOn_cons, if_pos hac, h1]; rfl
      · rw [List.cons_append, splitOn_cons, if_pos hac, h2]; rfl
    · cases I with
      | nil =>
        simp only [List.nil_append] at h1 h2
        refine ⟨[], a :: lastSeg, ?_, ?_⟩
        · rw [splitOn_cons, if_neg hac, h1, List.modifyHead_cons]; rfl
        · rw [List.cons_append, splitOn_cons, if_neg hac, h2, List.modifyHead_cons]; rfl
      | cons i I' =>
        refine ⟨(a :: i) :: I', lastSeg, ?_, ?_⟩
        · rw [splitOn_cons, if_neg hac, h1, List.cons_append, List.modifyHead_cons]; rfl
        · rw [List.cons_append, splitOn_cons, if_neg hac, h2, List.cons_append,
            List.modifyHead_cons]; rfl

theorem mem_intercalate_singleton {sep : Char} {L : List JStr} {x : Char}
    (h : x ∈ List.intercalate [sep] L) : x = sep ∨ ∃ l ∈ L, x ∈ l := by
  induction L with
  | nil =>
    rw [intercalate_nil'] at h
    exact absurd h (List.not_mem_nil x)
  | cons a L ih =>
    cases L with
    | nil =>
      rw [intercalate_single] at h
      exact Or.inr ⟨a, List.mem_cons_self a [], h⟩
    | cons b t =>
      rw [intercalate_cons₂] at h
      rcases List.mem_append.mp h with h | h
      · rcases List.mem_append.mp h with h | h
        · exact Or.inr ⟨a, List.mem_cons_self a _, h⟩
        · exact Or.inl (List.mem_singleton.mp h)
      · rcases ih h with h | ⟨l, hl, hx⟩
        · exact Or.inl h
        · exact Or.inr ⟨l, List.mem_cons.mpr (Or.inr hl), hx⟩

theorem head_ne_of_intercalate {sep : Char} {L : List JStr} {x0 : JStr} {L' : List JStr}
    (hL : L = x0 :: L') (hx0 : x0 ≠ []) :
    ∃ y t, List.intercalate [sep] L = y :: t ∧ y ∈ x0 := by
  subst hL
  cases x0 with
  | nil => exact absurd rfl hx0
  | cons y ys =>
    cases L' with
    | nil =>
      rw [intercalate_single]
      exact ⟨y, ys, rfl, List.mem_cons_self y ys⟩
    | cons b t =>
      rw [intercalate_cons₂]
      exact ⟨y, ys ++ [sep] ++ List.intercalate [sep] (b :: t), by simp, List.mem_cons_self y ys⟩

theorem dropWhile_head_false {P : Char → Bool} {l : JStr} {a : Char} {t : JStr}
    (h : l.dropWhile P = a :: t) : P a = false := by
  induction l with
  | nil => simp at h
  | cons b l ih =>
    by_cases hb : P b = true
    · rw [List.dropWhile_cons_of_pos hb] at h
      exact ih h
    · rw [List.dropWhile_cons_of_neg hb] at h
      cases h
      simpa using hb

theorem jsBackslashToSlash_jsTrim_comm (s : JStr) :
    jsBackslashToSlash (jsTrim s) = jsTrim (jsBackslashToSlash s) := by
  unfold jsTrim jsBackslashToSlash
  have hws : (Char.isWhitespace ∘ fun c => if c = '\\' then '/' else c) = Char.isWhitespace := by
    funext c
    by_cases hc : c = '\\'
    · subst hc; decide
    · simp [hc]
  rw [List.dropWhile_map, hws, ← List.map_reverse, List.dropWhile_map, hws, ← List.map_reverse]

theorem mem_jsBackslashToSlash_ne_backslash {s : JStr} {x : Char}
    (h : x ∈ jsBackslashToSlash s) : x ≠ '\\' := by
  unfold jsBackslashToSlash at h
  obtain ⟨a, _, hax⟩ := List.mem_map.mp h
  by_cases ha : a = '\\'
  · rw [ha] at hax; simp at hax; rw [← hax]; decide
  · simp only [if_neg ha] at hax
    rw [← hax]; exact ha

/-- Any string with a `".."` segment (after backslash normalization) is rejected
by `normalizeRelativePath`, no matter where in the path the segment occurs. -/
theorem normalizeRelativePath_rejects_dotdot {input : JStr}
    (h : ['.', '.'] ∈ jsSegments (jsBackslashToSlash input)) :
    normalizeRelativePath input = none := by
  have hinf : ['.', '.'] <:+: jsBackslashToSlash input := infix_of_mem_splitOn h
  have htrim : ['.', '.'] <:+: jsTrim (jsBackslashToSlash input) :=
    infix_jsTrim_of_not_ws (by decide) (by decide) hinf
  rw [← jsBackslashToSlash_jsTrim_comm] at htrim
  have hdrop : ['.', '.'] <:+: jsTrimmedInput input := by
    unfold jsTrimmedInput jsDropLeadingSlashes
    exact infix_dropWhile_of_not (by decide) (by decide) htrim
  unfold normalizeRelativePath
  by_cases hnil : jsTrimmedInput input = []
  · rw [if_pos hnil]
  · rw [if_neg hnil, if_pos (( jsIncludes_iff_infix _ _).mpr hdrop)]

/-- Shape of every accepted result of `normalizeRelativePath`: non-empty, does
not start with a separator, contains no backslash, and splits into segments
that are all non-empty and never `".."`. -/
theorem normalizeRelativePath_some_spec {input r : JStr}
    (h : normalizeRelativePath input = some r) :
    r ≠ [] ∧ r.head? ≠ some '/' ∧ (∀ x ∈ r, x ≠ '\\') ∧
      (∀ seg ∈ jsSegments r, seg ≠ [] ∧ seg ≠ ['.', '.']) := by
  unfold normalizeRelativePath at h
  obtain ⟨t, ht⟩ : ∃ t, jsTrimmedInput input = t := ⟨_, rfl⟩
  rw [ht] at h
  by_cases hnil : t = []
  · rw [if_pos hnil] at h; cases h
  rw [if_neg hnil] at h
  by_cases hinc : jsIncludes ['.', '.'] t = true
  · rw [if_pos hinc] at h; cases h
  rw [if_neg hinc, Option.some_inj] at h
  obtain ⟨L, hL⟩ : ∃ L, (jsSegments t).filter (fun seg => seg ≠ []) = L := ⟨_, rfl⟩
  rw [hL] at h
  have hLseg : ∀ seg ∈ L, seg ≠ [] ∧ '/' ∉ seg ∧ seg <:+: t := by
    intro seg hseg
    rw [← hL] at hseg
    obtain ⟨hmem, hpred⟩ := List.mem_filter.mp hseg
    refine ⟨by simpa using hpred, not_mem_of_mem_splitOn hmem, infix_of_mem_splitOn hmem⟩
  -- the first segment of t is non-empty, so L is non-empty
  obtain ⟨a, t', hcons⟩ : ∃ a t', t = a :: t' := by
    cases t with
    | nil => exact absurd rfl hnil
    | cons a t' => exact ⟨a, t', rfl⟩
  have hahead : a ≠ '/' := by
    have hdw : (jsBackslashToSlash (jsTrim input)).dropWhile (fun c => c = '/') = a :: t' := by
      have := ht.trans hcons
      unfold jsTrimmedInput jsDropLeadingSlashes at this
      exact this
    have := dropWhile_head_false hdw
    simpa using this
  obtain ⟨h0, t0, hsplit0⟩ : ∃ h0 t0, t'.splitOn '/' = h0 :: t0 := by
    cases hs : t'.splitOn '/' with
    | nil => exact absurd hs (List.splitOnP_ne_nil _ t')
    | cons h0 t0 => exact ⟨h0, t0, rfl⟩
  have hfirst : (a :: h0) ∈ L := by
    rw [← hL, List.mem_filter]
    constructor
    · show (a :: h0) ∈ jsSegments t
      rw [hcons]
      unfold jsSegments
      rw [splitOn_cons, if_neg hahead, hsplit0, List.modifyHead_cons]
      exact List.mem_cons_self _ _
    · simp
  have hLne : L ≠ [] := List.ne_nil_of_mem hfirst
  -- segments of r are exactly L
  have hsegr : jsSegments r = L := by
    rw [← h]
    unfold jsSegments jsJoinSlash
    exact List.splitOn_intercalate L '/' (fun l hl => (hLseg l hl).2.1) hLne
  obtain ⟨x0, L', hLcons⟩ : ∃ x0 L', L = x0 :: L' := by
    cases hLc : L with
    | nil => exact absurd hLc hLne
    | cons x0 L' => exact ⟨x0, L', rfl⟩
  have hx0 := hLseg x0 (by rw [hLcons]; exact List.mem_cons_self _ _)
  obtain ⟨y, ytail, hy, hymem⟩ := @head_ne_of_intercalate '/' L x0 L' hLcons hx0.1
  refine ⟨?_, ?_, ?_, ?_⟩
  · rw [← h]
    unfold jsJoinSlash
    rw [hy]
    exact List.cons_ne_nil y ytail
  · rw [← h]
    unfold jsJoinSlash
    rw [hy]
    simp only [List.head?_cons, ne_eq, Option.some_inj]
    intro hcontra
    exact hx0.2.1 (hcontra ▸ hymem)
  · intro x hx
    rw [← h] at hx
    unfold jsJoinSlash at hx
    rcases mem_intercalate_singleton hx with hx | ⟨l, hl, hxl⟩
    · rw [hx]; decide
    · have hinf := (hLseg l hl).2.2
      have hxt : x ∈ t := hinf.mem hxl
      have hxbs : x ∈ jsBackslashToSlash (jsTrim input) := by
        have hsub : t.Sublist (jsBackslashToSlash (jsTrim input)) := by
          rw [← ht]
          unfold jsTrimmedInput jsDropLeadingSlashes
          exact List.dropWhile_sublist _
        exact hsub.mem hxt
      exact mem_jsBackslashToSlash_ne_backslash hxbs
  · intro seg hseg
    rw [hsegr] at hseg
    have hs := hLseg seg hseg
    refine ⟨hs.1, ?_⟩
    intro hdd
    apply hinc
    rw [ jsIncludes_iff_infix]
    exact hdd ▸ hs.2.2

/-! ## Re-normalization of well-shaped paths (`ensureMarkdownPath` properties) -/

theorem ws_toLower {c : Char} (h : Char.isWhitespace c = true) : Char.toLower c = c := by
  simp [Char.isWhitespace] at h
  rcases h with ((h | h) | h) | h <;> subst h <;> decide

theorem dropWhile_eq_self_of_head {P : Char → Bool} {l : JStr}
    (h : ∀ c, l.head? = some c → P c = false) : l.dropWhile P = l := by
  cases l with
  | nil => rfl
  | cons a l =>
    have := h a (by simp)
    rw [List.dropWhile_cons_of_neg (by simp [this])]

theorem jsTrim_eq_self {l : JStr}
    (hhead : ∀ c, l.head? = some c → Char.isWhitespace c = false)
    (hlast : ∀ c, l.getLast? = some c → Char.isWhitespace c = false) :
    jsTrim l = l := by
  unfold jsTrim
  rw [dropWhile_eq_self_of_head hhead]
  rw [dropWhile_eq_self_of_head (by
    intro c hc
    rw [List.head?_reverse] at hc
    exact hlast c hc)]
  exact List.reverse_reverse l

/-- A string that is already in normalized shape is a fixed point of
`normalizeRelativePath`. -/
theorem normalizeRelativePath_fixed {r : JStr}
    (hne : r ≠ [])
    (hhead7 : r.head? ≠ some '/')
    (hheadws : ∀ c, r.head? = some c → Char.isWhitespace c = false)
    (hlastws : ∀ c, r.getLast? = some c → Char.isWhitespace c = false)
    (hbs : ∀ x ∈ r, x ≠ '\\')
    (hinc : jsIncludes ['.', '.'] r = false)
    (hsegs : ∀ seg ∈ jsSegments r, seg ≠ []) :
    normalizeRelativePath r = some r := by
  have htrim : jsTrim r = r := jsTrim_eq_self hheadws hlastws
  have hmap : jsBackslashToSlash r = r := by
    unfold jsBackslashToSlash
    have : List.map (fun c => if c = '\\' then '/' else c) r = List.map (fun c => c) r :=
      List.map_congr_left (fun a ha => if_neg (hbs a ha))
    rw [this, List.map_id']
  have hdrop : jsDropLeadingSlashes r = r := by
    unfold jsDropLeadingSlashes
    refine dropWhile_eq_self_of_head ?_
    intro c hc
    have : c ≠ '/' := by
      intro hcontra
      exact hhead7 (hcontra ▸ hc)
    simp [this]
  have htin : jsTrimmedInput r = r := by
    unfold jsTrimmedInput
    rw [htrim, hmap, hdrop]
  unfold normalizeRelativePath
  rw [htin, if_neg hne, if_neg (by simp [hinc])]
  congr 1
  rw [List.filter_eq_self.mpr (by intro a ha; simpa using hsegs a ha)]
  unfold jsJoinSlash jsSegments
  exact List.intercalate_splitOn r '/'

/-- Every accepted result of `ensureMarkdownPath` ends with `".md"`
case-insensitively. -/
theorem ensureMarkdownPath_ends_md {input r : JStr}
    (h : ensureMarkdownPath input = some r) :
    ['.', 'm', 'd'] <:+ jsToLower r := by
  cases hn : normalizeRelativePath input with
  | none => simp only [ensureMarkdownPath, hn] at h; cases h
  | some n =>
    simp only [ensureMarkdownPath, hn] at h
    by_cases hsuf : (['.', 'm', 'd']).isSuffixOf (jsToLower n) = true
    · rw [if_pos hsuf, Option.some_inj] at h
      subst h
      exact List.isSuffixOf_iff_suffix.mp hsuf
    · rw [if_neg hsuf, Option.some_inj] at h
      subst h
      unfold jsToLower
      rw [List.map_append]
      have : List.map Char.toLower ['.', 'm', 'd'] = ['.', 'm', 'd'] := by decide
      rw [this]
      exact List.suffix_append _ _

/-- `ensureMarkdownPath` maps an accepted result that does not start with
whitespace and contains no `".."` substring back to itself. -/
theorem ensureMarkdownPath_idem {input r : JStr}
    (h : ensureMarkdownPath input = some r)
    (hheadws : ∀ c, r.head? = some c → Char.isWhitespace c = false)
    (hnodd : jsIncludes ['.', '.'] r = false) :
    ensureMarkdownPath r = some r := by
  cases hn : normalizeRelativePath input with
  | none => simp only [ensureMarkdownPath, hn] at h; cases h
  | some n =>
    simp only [ensureMarkdownPath, hn] at h
    obtain ⟨hne_n, hhead7_n, hbs_n, hsegs_n⟩ := normalizeRelativePath_some_spec hn
    by_cases hsuf : (['.', 'm', 'd']).isSuffixOf (jsToLower n) = true
    · rw [if_pos hsuf, Option.some_inj] at h
      subst h
      have hlastws : ∀ c, n.getLast? = some c → Char.isWhitespace c = false := by
        intro c hc
        obtain ⟨p, hp⟩ := List.isSuffixOf_iff_suffix.mp hsuf
        have hlow : (jsToLower n).getLast? = some 'd' := by
          rw [← hp, List.getLast?_append]
          rfl
        unfold jsToLower at hlow
        rw [List.getLast?_map, hc] at hlow
        have hcd : Char.toLower c = 'd' := by simpa using hlow
        by_cases hws : Char.isWhitespace c = true
        · rw [ws_toLower hws] at hcd
          subst hcd
          exact absurd hws (by decide)
        · simpa using hws
      have hfix := normalizeRelativePath_fixed hne_n hhead7_n hheadws hlastws hbs_n hnodd
        (fun seg hseg => (hsegs_n seg hseg).1)
      simp only [ensureMarkdownPath, hfix, if_pos hsuf]
    · rw [if_neg hsuf, Option.some_inj] at h
      subst h
      have hne : n ++ ['.', 'm', 'd'] ≠ [] := by simp
      have hhead7 : (n ++ ['.', 'm', 'd']).head? ≠ some '/' := by
        cases n with
        | nil => exact absurd rfl hne_n
        | cons a n' =>
          simpa using hhead7_n
      have hlastws : ∀ c, (n ++ ['.', 'm', 'd']).getLast? = some c →
          Char.isWhitespace c = false := by
        intro c hc
        rw [List.getLast?_append] at hc
        have : c = 'd' := by simpa using hc.symm
        subst this
        decide
      have hbs : ∀ x ∈ n ++ ['.', 'm', 'd'], x ≠ '\\' := by
        intro x hx
        rcases List.mem_append.mp hx with hx | hx
        · exact hbs_n x hx
        · rcases List.mem_cons.mp hx with hx | hx
          · subst hx; decide
          rcases List.mem_cons.mp hx with hx | hx
          · subst hx; decide
          rcases List.mem_cons.mp hx with hx | hx
          · subst hx; decide
          · exact absurd hx (List.not_mem_nil x)
      have hsegs : ∀ seg ∈ jsSegments (n ++ ['.', 'm', 'd']), seg ≠ [] := by
        obtain ⟨I, lastSeg, h1, h2⟩ := splitOn_append_no_sep n (by decide : '/' ∉ ['.', 'm', 'd'])
        intro seg hseg
        unfold jsSegments at hseg
        rw [h2] at hseg
        rcases List.mem_append.mp hseg with hseg | hseg
        · refine (hsegs_n seg ?_).1
          unfold jsSegments
          rw [h1]
          exact List.mem_append.mpr (Or.inl hseg)
        · rw [List.mem_singleton.mp hseg]
          simp
      have hfix := normalizeRelativePath_fixed hne hhead7 hheadws hlastws hbs hnodd hsegs
      have hsuf2 : (['.', 'm', 'd']).isSuffixOf (jsToLower (n ++ ['.', 'm', 'd'])) = true := by
        rw [List.isSuffixOf_iff_suffix]
        unfold jsToLower
        rw [List.map_append]
        have : List.map Char.toLower ['.', 'm', 'd'] = ['.', 'm', 'd'] := by decide
        rw [this]
        exact List.suffix_append _ _
      simp only [ensureMarkdownPath, hfix, if_pos hsuf2]

/-! ## File entries and the tree listing (`sortEntries`, SkillEditorDialog.tsx 71-105) -/

/-- A `SkillFileEntry` from `src/types/models.ts`: a relative path plus a
directory flag. -/
structure SkillFileEntry where
  relativePath : JStr
  isDir : Bool
deriving DecidableEq

/-- `normalizeParent` from `sortEntries`: the text before the last `"/"`,
or the empty string when there is none (JS `lastIndexOf` semantics). -/
def parentOf (p : JStr) : JStr :=
  ((p.reverse.dropWhile (fun c => c ≠ '/')).drop 1).reverse

/-- `basename` from `sortEntries`: the text after the last `"/"`. -/
def basenameOf (p : JStr) : JStr :=
  (p.reverse.takeWhile (fun c => c ≠ '/')).reverse

/-- The sibling comparator of `sortEntries`: directories first, then
lexicographic by base name. -/
def entryLe (a b : SkillFileEntry) : Prop :=
  if a.isDir = b.isDir then basenameOf a.relativePath ≤ basenameOf b.relativePath
  else a.isDir = true

instance : DecidableRel entryLe := fun a b => by
  unfold entryLe
  infer_instance

instance : IsTotal SkillFileEntry entryLe := by
  constructor
  intro a b
  unfold entryLe
  by_cases h : a.isDir = b.isDir
  · rw [if_pos h, if_pos h.symm]
    exact le_total _ _
  · rw [if_neg h, if_neg (fun hc => h hc.symm)]
    cases ha : a.isDir
    · cases hb : b.isDir
      · exact absurd (ha.trans hb.symm) h
      · exact Or.inr rfl
    · exact Or.inl rfl

instance : IsTrans SkillFileEntry entryLe := by
  constructor
  intro a b c hab hbc
  unfold entryLe at *
  cases ha : a.isDir <;> cases hb : b.isDir <;> cases hc : c.isDir <;>
    simp only [ha, hb, hc, if_pos, if_neg, reduceCtorEq, if_true, if_false] at * <;>
    first
      | exact le_trans hab hbc
      | rfl
      | exact hab
      | exact hbc

/-- The children of `parent`, sorted as in `sortEntries` (the `byParent`
grouping preserves input order; the model uses a stable sort). -/
def childrenSorted (entries : List SkillFileEntry) (parent : JStr) : List SkillFileEntry :=
  List.insertionSort entryLe (entries.filter (fun e => parentOf e.relativePath = parent))

/-- The recursive `walk` of `sortEntries`: push each child, then (for
directories) its recursively listed subtree.  Recursion is fueled; the
top-level `sortEntries` supplies enough fuel for every well-formed input. -/
def walkEntries (entries : List SkillFileEntry) : Nat → JStr → List SkillFileEntry
  | 0, _ => []
  | fuel + 1, parent =>
    (childrenSorted entries parent).flatMap
      (fun child =>
        child :: (if child.isDir = true then walkEntries entries fuel child.relativePath else []))

/-- `sortEntries` from `SkillEditorDialog.tsx`. -/
def sortEntries (entries : List SkillFileEntry) : List SkillFileEntry :=
  walkEntries entries (entries.length + 1) []

theorem walkEntries_succ (entries : List SkillFileEntry) (f : Nat) (parent : JStr) :
    walkEntries entries (f + 1) parent =
      (childrenSorted entries parent).flatMap
        (fun child =>
          child :: (if child.isDir = true then walkEntries entries f child.relativePath else [])) :=
  rfl

/-- `p` lies strictly below the directory `parent` (the root is `""`). -/
def isUnder (parent p : JStr) : Prop :=
  if parent = [] then p ≠ [] else (parent ++ ['/']) <+: p

instance : ∀ parent p, Decidable (isUnder parent p) := fun parent p => by
  unfold isUnder
  infer_instance

/-- A well-formed relative path: non-empty, with no empty segment. -/
def validPath (p : JStr) : Prop :=
  p ≠ [] ∧ ∀ seg ∈ jsSegments p, seg ≠ []

instance : ∀ p, Decidable (validPath p) := fun p => by
  unfold validPath
  infer_instance

/-- Well-formed entry lists: valid paths, no duplicate paths, and every
proper ancestor of an entry present as a directory entry. -/
def wfEntries (entries : List SkillFileEntry) : Prop :=
  (∀ e ∈ entries, validPath e.relativePath) ∧
  (entries.map (fun e => e.relativePath)).Nodup ∧
  (∀ e ∈ entries, ∀ i ∈ List.range e.relativePath.length,
    e.relativePath.take i ≠ [] → isUnder (e.relativePath.take i) e.relativePath →
      SkillFileEntry.mk (e.relativePath.take i) true ∈ entries)

instance : ∀ entries, Decidable (wfEntries entries) := fun entries => by
  unfold wfEntries
  infer_instance

/-! ## Path-structure lemmas -/

theorem parentOf_concat {q b : JStr} (hb : '/' ∉ b) : parentOf (q ++ '/' :: b) = q := by
  unfold parentOf
  rw [List.reverse_append, List.reverse_cons]
  have hb' : b.reverse.dropWhile (fun c => c ≠ '/') = [] := by
    rw [List.dropWhile_eq_nil_iff]
    intro x hx
    simp only [ne_eq, decide_eq_true_eq]
    exact fun hc => hb (hc ▸ List.mem_reverse.mp hx)
  have hdrop : (b.reverse ++ ['/'] ++ q.reverse).dropWhile (fun c => c ≠ '/') =
      '/' :: q.reverse := by
    rw [List.append_assoc, List.dropWhile_append, hb']
    rw [if_pos (by rfl), List.singleton_append, List.dropWhile_cons_of_neg (by simp)]
  rw [hdrop]
  simp

theorem basenameOf_concat {q b : JStr} (hb : '/' ∉ b) : basenameOf (q ++ '/' :: b) = b := by
  unfold basenameOf
  rw [List.reverse_append, List.reverse_cons]
  have hb' : b.reverse.takeWhile (fun c => c ≠ '/') = b.reverse := by
    rw [List.takeWhile_eq_self_iff]
    intro x hx
    simp only [ne_eq, decide_eq_true_eq]
    exact fun hc => hb (hc ▸ List.mem_reverse.mp hx)
  have htake : (b.reverse ++ ['/'] ++ q.reverse).takeWhile (fun c => c ≠ '/') = b.reverse := by
    rw [List.append_assoc, List.takeWhile_append, hb']
    rw [if_pos rfl, List.singleton_append, List.takeWhile_cons_of_neg (by simp)]
    simp
  rw [htake]
  simp

theorem parentOf_no_slash {p : JStr} (h : '/' ∉ p) : parentOf p = [] := by
  unfold parentOf
  have : p.reverse.dropWhile (fun c => c ≠ '/') = [] := by
    rw [List.dropWhile_eq_nil_iff]
    intro x hx
    simp only [ne_eq, decide_eq_true_eq]
    exact fun hc => h (hc ▸ List.mem_reverse.mp hx)
  rw [this]
  rfl

theorem basenameOf_no_slash {p : JStr} (h : '/' ∉ p) : basenameOf p = p := by
  unfold basenameOf
  have : p.reverse.takeWhile (fun c => c ≠ '/') = p.reverse := by
    rw [List.takeWhile_eq_self_iff]
    intro x hx
    simp only [ne_eq, decide_eq_true_eq]
    exact fun hc => h (hc ▸ List.mem_reverse.mp hx)
  rw [this]
  exact List.reverse_reverse p

/-- Every path containing a slash decomposes at its last slash. -/
theorem slash_decomposition {p : JStr} (h : '/' ∈ p) :
    p = parentOf p ++ '/' :: basenameOf p ∧ '/' ∉ basenameOf p := by
  obtain ⟨tw, htw⟩ : ∃ tw, p.reverse.takeWhile (fun c => c ≠ '/') = tw := ⟨_, rfl⟩
  obtain ⟨dw, hdw⟩ : ∃ dw, p.reverse.dropWhile (fun c => c ≠ '/') = dw := ⟨_, rfl⟩
  have hsplit : tw ++ dw = p.reverse := by
    rw [← htw, ← hdw]
    exact List.takeWhile_append_dropWhile _ _
  obtain ⟨d, u, hd⟩ : ∃ d u, dw = d :: u := by
    cases hdc : dw with
    | nil =>
      rw [hdc] at hdw
      rw [List.dropWhile_eq_nil_iff] at hdw
      have := hdw '/' (List.mem_reverse.mpr h)
      simp at this
    | cons d u => exact ⟨d, u, rfl⟩
  have hdslash : d = '/' := by
    have := dropWhile_head_false (hd ▸ hdw)
    simpa using this
  subst hdslash
  have hbase : basenameOf p = tw.reverse := by
    unfold basenameOf
    rw [htw]
  have hpar : parentOf p = u.reverse := by
    unfold parentOf
    rw [hdw, hd]
    rfl
  have hp : p = u.reverse ++ '/' :: tw.reverse := by
    have hrev : p.reverse = tw ++ '/' :: u := by rw [← hsplit, hd]
    calc p = p.reverse.reverse := (List.reverse_reverse p).symm
      _ = (tw ++ '/' :: u).reverse := by rw [hrev]
      _ = u.reverse ++ '/' :: tw.reverse := by
          rw [List.reverse_append, List.reverse_cons]
          simp
  refine ⟨by rw [hbase, hpar]; exact hp, ?_⟩
  rw [hbase]
  intro hc
  have hmem : '/' ∈ p.reverse.takeWhile (fun c => c ≠ '/') := by
    rw [htw]
    exact List.mem_reverse.mp hc
  have := List.mem_takeWhile_imp hmem
  simp at this

theorem isUnder_of_parentOf {p parent : JStr} (hne : p ≠ []) (h : parentOf p = parent) :
    isUnder parent p := by
  by_cases hs : '/' ∈ p
  · obtain ⟨hdec, hbs⟩ := slash_decomposition hs
    unfold isUnder
    by_cases hpe : parent = []
    · rw [if_pos hpe]
      exact hne
    · rw [if_neg hpe]
      refine ⟨basenameOf p, ?_⟩
      rw [← h]
      rw [List.append_assoc]
      exact hdec.symm
  · rw [parentOf_no_slash hs] at h
    unfold isUnder
    rw [if_pos h.symm]
    exact hne

theorem parentOf_length_lt {p parent : JStr} (hne : p ≠ []) (h : parentOf p = parent) :
    parent.length < p.length := by
  by_cases hs : '/' ∈ p
  · obtain ⟨hdec, _⟩ := slash_decomposition hs
    rw [← h]
    calc (parentOf p).length < (parentOf p).length + (1 + (basenameOf p).length) :=
          Nat.lt_add_of_pos_right (Nat.succ_le_of_lt (Nat.lt_of_lt_of_le Nat.zero_lt_one
            (Nat.le_add_right 1 _)))
      _ = (parentOf p ++ '/' :: basenameOf p).length := by
          rw [List.length_append, List.length_cons]
          omega
      _ = p.length := by rw [← hdec]
  · rw [parentOf_no_slash hs] at h
    rw [← h]
    simp only [List.length_nil]
    exact List.length_pos.mpr hne

/-! ## Lemmas about `isUnder` -/

theorem isUnder_ne_nil {q p : JStr} (h : isUnder q p) : p ≠ [] := by
  unfold isUnder at h
  by_cases hq : q = []
  · rw [if_pos hq] at h
    exact h
  · rw [if_neg hq] at h
    obtain ⟨t, ht⟩ := h
    intro hc
    rw [hc] at ht
    have := congrArg List.length ht
    simp at this

theorem isUnder_length_lt {q p : JStr} (h : isUnder q p) : q.length < p.length := by
  unfold isUnder at h
  by_cases hq : q = []
  · rw [if_pos hq] at h
    rw [hq]
    simpa using List.length_pos.mpr h
  · rw [if_neg hq] at h
    obtain ⟨t, ht⟩ := h
    have := congrArg List.length ht
    simp at this
    omega

theorem isUnder_irrefl (p : JStr) : ¬ isUnder p p := by
  intro h
  exact absurd (isUnder_length_lt h) (lt_irrefl _)

theorem isUnder_decomp {q p : JStr} (hq : q ≠ []) (h : isUnder q p) :
    ∃ rest, p = q ++ '/' :: rest := by
  unfold isUnder at h
  rw [if_neg hq] at h
  obtain ⟨t, ht⟩ := h
  exact ⟨t, by rw [← ht]; simp⟩

theorem isUnder_trans {a b c : JStr} (hab : isUnder a b) (hbc : isUnder b c) : isUnder a c := by
  by_cases ha : a = []
  · unfold isUnder
    rw [if_pos ha]
    exact isUnder_ne_nil hbc
  · have hb : b ≠ [] := isUnder_ne_nil hab
    obtain ⟨r1, hr1⟩ := isUnder_decomp ha hab
    obtain ⟨r2, hr2⟩ := isUnder_decomp hb hbc
    unfold isUnder
    rw [if_neg ha]
    refine ⟨r1 ++ '/' :: r2, ?_⟩
    rw [hr2, hr1]
    simp

theorem take_of_isUnder {q p : JStr} (hq : q ≠ []) (h : isUnder q p) :
    p.take q.length = q := by
  obtain ⟨rest, hrest⟩ := isUnder_decomp hq h
  rw [hrest]
  exact List.take_left q ('/' :: rest)

/-- Closure under parents, as usable for arbitrary ancestors. -/
theorem ancestor_mem {entries : List SkillFileEntry} (hwf : wfEntries entries)
    {e : SkillFileEntry} (he : e ∈ entries) {q : JStr} (hq : q ≠ [])
    (hu : isUnder q e.relativePath) : SkillFileEntry.mk q true ∈ entries := by
  have htake : e.relativePath.take q.length = q := take_of_isUnder hq hu
  have hlen : q.length < e.relativePath.length := isUnder_length_lt hu
  have := hwf.2.2 e he q.length (List.mem_range.mpr hlen)
  rw [htake] at this
  exact this hq hu

theorem parentOf_of_isUnder {q p : JStr} (hq : q ≠ []) (h : isUnder q p) :
    parentOf p = q ∨ isUnder q (parentOf p) := by
  obtain ⟨rest, hrest⟩ := isUnder_decomp hq h
  by_cases hs : '/' ∈ rest
  · obtain ⟨hdec, hbs⟩ := slash_decomposition hs
    right
    have : p = (q ++ '/' :: parentOf rest) ++ '/' :: basenameOf rest := by
      rw [hrest]
      conv_lhs => rw [hdec]
      simp
    rw [this, parentOf_concat hbs]
    unfold isUnder
    rw [if_neg hq]
    exact ⟨parentOf rest, by simp⟩
  · left
    rw [hrest, parentOf_concat hs]

theorem length_le_parentOf_of_isUnder {q p : JStr} (hq : q ≠ []) (h : isUnder q p) :
    q.length ≤ (parentOf p).length := by
  rcases parentOf_of_isUnder hq h with heq | hu
  · rw [heq]
  · exact Nat.le_of_lt (isUnder_length_lt hu)

/-- Two ancestors of the same path whose parents agree coincide. -/
theorem isUnder_same_level_unique {q₁ q₂ p parent : JStr}
    (h1 : q₁ ≠ []) (h2 : q₂ ≠ [])
    (hp1 : parentOf q₁ = parent) (hp2 : parentOf q₂ = parent)
    (hu1 : isUnder q₁ p) (hu2 : isUnder q₂ p) : q₁ = q₂ := by
  obtain ⟨r1, hr1⟩ := isUnder_decomp h1 hu1
  obtain ⟨r2, hr2⟩ := isUnder_decomp h2 hu2
  have hpre1 : q₁ ++ ['/'] <+: p := ⟨r1, by rw [hr1]; simp⟩
  have hpre2 : q₂ ++ ['/'] <+: p := ⟨r2, by rw [hr2]; simp⟩
  have key : ∀ a b : JStr, a ≠ [] → parentOf a = parent → parentOf b = parent →
      a ++ ['/'] <+: p → b ++ ['/'] <+: p → a.length < b.length → False := by
    intro a b hane hpa hpb ha hb hlt
    have hbp : b <+: p := (List.prefix_append b ['/']).trans hb
    have hab : a ++ ['/'] <+: b := by
      refine List.prefix_of_prefix_length_le ha hbp ?_
      simp
      omega
    have hu : isUnder a b := by
      unfold isUnder
      rw [if_neg hane]
      exact hab
    have hle : a.length ≤ (parentOf b).length := length_le_parentOf_of_isUnder hane hu
    rw [hpb, ← hpa] at hle
    have hgt : (parentOf a).length < a.length := parentOf_length_lt hane rfl
    omega
  rcases Nat.lt_trichotomy q₁.length q₂.length with hlt | heq | hgt
  · exact absurd (key q₁ q₂ h1 hp1 hp2 hpre1 hpre2 hlt) (fun h => h)
  · have hq1p : q₁ <+: p := (List.prefix_append q₁ ['/']).trans hpre1
    have hq2p : q₂ <+: p := (List.prefix_append q₂ ['/']).trans hpre2
    have := List.prefix_of_prefix_length_le hq1p hq2p (Nat.le_of_eq heq)
    exact this.eq_of_length heq
  · exact absurd (key q₂ q₁ h2 hp2 hp1 hpre2 hpre1 hgt) (fun h => h)

/-! ## The walk measure and `childrenSorted` facts -/

theorem length_filter_mono {α : Type} (l : List α) (P Q : α → Bool)
    (h : ∀ a ∈ l, P a = true → Q a = true) :
    (l.filter P).length ≤ (l.filter Q).length := by
  induction l with
  | nil => simp
  | cons a l ih =>
    have ih' := ih (fun b hb => h b (List.mem_cons.mpr (Or.inr hb)))
    by_cases hP : P a = true
    · rw [List.filter_cons_of_pos hP, List.filter_cons_of_pos (h a (List.mem_cons_self a l) hP)]
      simpa using ih'
    · rw [List.filter_cons_of_neg (by simpa using hP)]
      by_cases hQ : Q a = true
      · rw [List.filter_cons_of_pos hQ]
        exact Nat.le_succ_of_le ih'
      · rw [List.filter_cons_of_neg (by simpa using hQ)]
        exact ih'

theorem length_filter_strict {α : Type} {l : List α} {P Q : α → Bool} {w : α}
    (h : ∀ a ∈ l, P a = true → Q a = true)
    (hw : w ∈ l) (hQ : Q w = true) (hP : P w = false) :
    (l.filter P).length < (l.filter Q).length := by
  induction l with
  | nil => exact absurd hw (List.not_mem_nil w)
  | cons a l ih =>
    have hmono := length_filter_mono l P Q (fun b hb => h b (List.mem_cons.mpr (Or.inr hb)))
    rcases List.mem_cons.mp hw with hwa | hwl
    · subst hwa
      rw [List.filter_cons_of_neg (by simp [hP]), List.filter_cons_of_pos hQ]
      exact Nat.lt_succ_of_le hmono
    · have ih' := ih (fun b hb => h b (List.mem_cons.mpr (Or.inr hb))) hwl
      by_cases hPa : P a = true
      · rw [List.filter_cons_of_pos hPa, List.filter_cons_of_pos (h a (List.mem_cons_self a l) hPa)]
        simpa using ih'
      · rw [List.filter_cons_of_neg (by simpa using hPa)]
        by_cases hQa : Q a = true
        · rw [List.filter_cons_of_pos hQa]
          exact Nat.lt_succ_of_le (Nat.le_of_lt ih')
        · rw [List.filter_cons_of_neg (by simpa using hQa)]
          exact ih'

/-- Fuel needed to list the subtree below `parent`. -/
def walkMeasure (entries : List SkillFileEntry) (parent : JStr) : Nat :=
  (entries.filter (fun e => parent.length < e.relativePath.length)).length + 1

theorem walkMeasure_pos (entries : List SkillFileEntry) (parent : JStr) :
    1 ≤ walkMeasure entries parent := Nat.le_add_left 1 _

theorem walkMeasure_le (entries : List SkillFileEntry) (parent : JStr) :
    walkMeasure entries parent ≤ entries.length + 1 := by
  unfold walkMeasure
  have := List.length_filter_le (fun e => decide (parent.length < e.relativePath.length)) entries
  omega

theorem walkMeasure_child_lt {entries : List SkillFileEntry} {c : SkillFileEntry} {parent : JStr}
    (hc : c ∈ entries) (hcne : c.relativePath ≠ [])
    (hp : parentOf c.relativePath = parent) :
    walkMeasure entries c.relativePath < walkMeasure entries parent := by
  unfold walkMeasure
  have hlen : parent.length < c.relativePath.length := parentOf_length_lt hcne hp
  have hstrict := length_filter_strict
    (l := entries)
    (P := fun e => decide (c.relativePath.length < e.relativePath.length))
    (Q := fun e => decide (parent.length < e.relativePath.length))
    (fun a _ ha => by
      simp only [decide_eq_true_eq] at *
      omega)
    hc (by simp [hlen]) (by simp)
  omega

theorem mem_childrenSorted_iff {entries : List SkillFileEntry} {parent : JStr}
    {x : SkillFileEntry} :
    x ∈ childrenSorted entries parent ↔ x ∈ entries ∧ parentOf x.relativePath = parent := by
  unfold childrenSorted
  rw [(List.perm_insertionSort entryLe _).mem_iff, List.mem_filter]
  simp

theorem childrenSorted_nodup {entries : List SkillFileEntry}
    (hnd : (entries.map (fun e => e.relativePath)).Nodup) (parent : JStr) :
    (childrenSorted entries parent).Nodup := by
  unfold childrenSorted
  rw [(List.perm_insertionSort entryLe _).nodup_iff]
  exact List.Nodup.filter _ (List.Nodup.of_map _ hnd)

theorem childrenSorted_sorted (entries : List SkillFileEntry) (parent : JStr) :
    List.Pairwise entryLe (childrenSorted entries parent) :=
  List.sorted_insertionSort entryLe _

/-! ## The walk: membership, nodup -/

theorem takeWhile_ne_nil_of_validPath {p : JStr} (hvp : validPath p) :
    p.takeWhile (fun c => c ≠ '/') ≠ [] := by
  obtain ⟨hne, hsegs⟩ := hvp
  cases p with
  | nil => exact absurd rfl hne
  | cons a p' =>
    by_cases ha : a = '/'
    · exfalso
      refine hsegs [] ?_ rfl
      unfold jsSegments
      rw [splitOn_cons, if_pos ha]
      exact List.mem_cons_self _ _
    · rw [List.takeWhile_cons_of_pos (by simp [ha])]
      simp

/-- Between a strict ancestor `parent` and a path `p` that is not its direct
child there is a next-level ancestor `q`. -/
theorem exists_intermediate {parent p : JStr} (hvp : validPath p)
    (hu : isUnder parent p) (hne : parentOf p ≠ parent) :
    ∃ q, q ≠ [] ∧ parentOf q = parent ∧ isUnder q p := by
  by_cases hpe : parent = []
  · subst hpe
    obtain ⟨tw, htw⟩ : ∃ tw, p.takeWhile (fun c => c ≠ '/') = tw := ⟨_, rfl⟩
    obtain ⟨dw, hdw⟩ : ∃ dw, p.dropWhile (fun c => c ≠ '/') = dw := ⟨_, rfl⟩
    have hsplit : tw ++ dw = p := by
      rw [← htw, ← hdw]
      exact List.takeWhile_append_dropWhile _ _
    have htwnos : '/' ∉ tw := by
      intro hc
      rw [← htw] at hc
      have := List.mem_takeWhile_imp hc
      simp at this
    cases dw with
    | nil =>
      exfalso
      apply hne
      refine parentOf_no_slash ?_
      intro hs
      rw [← hsplit] at hs
      rcases List.mem_append.mp hs with hs | hs
      · exact htwnos hs
      · exact absurd hs (List.not_mem_nil _)
    | cons d u =>
      have hd : d = '/' := by
        have := dropWhile_head_false hdw
        simpa using this
      subst hd
      have htwne : tw ≠ [] := by
        rw [← htw]
        exact takeWhile_ne_nil_of_validPath hvp
      refine ⟨tw, htwne, parentOf_no_slash htwnos, ?_⟩
      unfold isUnder
      rw [if_neg htwne]
      exact ⟨u, by rw [← hsplit]; simp⟩
  · obtain ⟨rest, hrest⟩ := isUnder_decomp hpe hu
    obtain ⟨tw, htw⟩ : ∃ tw, rest.takeWhile (fun c => c ≠ '/') = tw := ⟨_, rfl⟩
    obtain ⟨dw, hdw⟩ : ∃ dw, rest.dropWhile (fun c => c ≠ '/') = dw := ⟨_, rfl⟩
    have hsplit : tw ++ dw = rest := by
      rw [← htw, ← hdw]
      exact List.takeWhile_append_dropWhile _ _
    have htwnos : '/' ∉ tw := by
      intro hc
      rw [← htw] at hc
      have := List.mem_takeWhile_imp hc
      simp at this
    cases dw with
    | nil =>
      exfalso
      apply hne
      rw [hrest]
      refine parentOf_concat ?_
      intro hs
      rw [← hsplit] at hs
      rcases List.mem_append.mp hs with hs | hs
      · exact htwnos hs
      · exact absurd hs (List.not_mem_nil _)
    | cons d u =>
      have hd : d = '/' := by
        have := dropWhile_head_false hdw
        simpa using this
      subst hd
      refine ⟨parent ++ '/' :: tw, by simp, parentOf_concat htwnos, ?_⟩
      unfold isUnder
      rw [if_neg (by simp)]
      refine ⟨u, ?_⟩
      rw [hrest, ← hsplit]
      simp

theorem mem_block {c x : SkillFileEntry} {L : List SkillFileEntry}
    (h : x ∈ c :: (if c.isDir = true then L else [])) :
    x = c ∨ (c.isDir = true ∧ x ∈ L) := by
  rcases List.mem_cons.mp h with h | h
  · exact Or.inl h
  · by_cases hd : c.isDir = true
    · rw [if_pos hd] at h
      exact Or.inr ⟨hd, h⟩
    · rw [if_neg hd] at h
      exact absurd h (List.not_mem_nil x)

/-- Main characterization of the fueled walk: on well-formed entry lists and
with sufficient fuel, the walk below `parent` lists exactly the entries
strictly under `parent`, without duplicates. -/
theorem walk_spec {entries : List SkillFileEntry} (hwf : wfEntries entries) :
    ∀ n parent fuel, walkMeasure entries parent ≤ n → walkMeasure entries parent ≤ fuel →
      (walkEntries entries fuel parent).Nodup ∧
      (∀ x, x ∈ walkEntries entries fuel parent ↔
        x ∈ entries ∧ isUnder parent x.relativePath) := by
  intro n
  induction n with
  | zero =>
    intro parent fuel hn _
    have := walkMeasure_pos entries parent
    omega
  | succ n ih =>
    intro parent fuel hn hfuel
    obtain ⟨f, rfl⟩ : ∃ f, fuel = f + 1 := by
      have := walkMeasure_pos entries parent
      exact ⟨fuel - 1, by omega⟩
    have hchild : ∀ c ∈ childrenSorted entries parent,
        c ∈ entries ∧ parentOf c.relativePath = parent ∧ c.relativePath ≠ [] ∧
        walkMeasure entries c.relativePath ≤ n ∧ walkMeasure entries c.relativePath ≤ f := by
      intro c hc
      obtain ⟨hce, hcp⟩ := mem_childrenSorted_iff.mp hc
      have hcne : c.relativePath ≠ [] := (hwf.1 c hce).1
      have hlt := walkMeasure_child_lt hce hcne hcp
      exact ⟨hce, hcp, hcne, by omega, by omega⟩
    have ihc : ∀ c ∈ childrenSorted entries parent, c.isDir = true →
        (walkEntries entries f c.relativePath).Nodup ∧
        (∀ x, x ∈ walkEntries entries f c.relativePath ↔
          x ∈ entries ∧ isUnder c.relativePath x.relativePath) := by
      intro c hc _
      obtain ⟨_, _, _, h1, h2⟩ := hchild c hc
      exact ih c.relativePath f h1 h2
    constructor
    · -- Nodup
      simp only [walkEntries]
      rw [List.nodup_flatMap]
      constructor
      · intro c hc
        by_cases hd : c.isDir = true
        · rw [if_pos hd]
          obtain ⟨hwn, hiff⟩ := ihc c hc hd
          refine List.nodup_cons.mpr ⟨?_, hwn⟩
          intro hcw
          obtain ⟨_, hcu⟩ := (hiff c).mp hcw
          exact isUnder_irrefl _ hcu
        · rw [if_neg hd]
          simp
      · refine List.Pairwise.imp_of_mem ?_ (childrenSorted_nodup hwf.2.1 parent)
        intro c₁ c₂ hc₁ hc₂ hne12
        obtain ⟨hc1e, hc1p, hc1ne, _, _⟩ := hchild c₁ hc₁
        obtain ⟨hc2e, hc2p, hc2ne, _, _⟩ := hchild c₂ hc₂
        have hpathne : c₁.relativePath ≠ c₂.relativePath := by
          intro hpeq
          exact hne12 (List.inj_on_of_nodup_map hwf.2.1 hc1e hc2e hpeq)
        intro x hx1 hx2
        rcases mem_block hx1 with rfl | ⟨hd1, hx1w⟩
        · rcases mem_block hx2 with heq | ⟨hd2, hx2w⟩
          · exact hne12 heq
          · obtain ⟨_, hiff2⟩ := ihc c₂ hc₂ hd2
            obtain ⟨_, hu⟩ := (hiff2 x).mp hx2w
            have hle : c₂.relativePath.length ≤ (parentOf x.relativePath).length :=
              length_le_parentOf_of_isUnder hc2ne hu
            rw [hc1p] at hle
            have hgt : parent.length < c₂.relativePath.length :=
              parentOf_length_lt hc2ne hc2p
            omega
        · rcases mem_block hx2 with rfl | ⟨hd2, hx2w⟩
          · obtain ⟨_, hiff1⟩ := ihc c₁ hc₁ hd1
            obtain ⟨_, hu⟩ := (hiff1 x).mp hx1w
            have hle : c₁.relativePath.length ≤ (parentOf x.relativePath).length :=
              length_le_parentOf_of_isUnder hc1ne hu
            rw [hc2p] at hle
            have hgt : parent.length < c₁.relativePath.length :=
              parentOf_length_lt hc1ne hc1p
            omega
          · obtain ⟨_, hiff1⟩ := ihc c₁ hc₁ hd1
            obtain ⟨_, hiff2⟩ := ihc c₂ hc₂ hd2
            obtain ⟨_, hu1⟩ := (hiff1 x).mp hx1w
            obtain ⟨_, hu2⟩ := (hiff2 x).mp hx2w
            exact hpathne (isUnder_same_level_unique hc1ne hc2ne hc1p hc2p hu1 hu2)
    · -- membership
      intro x
      simp only [walkEntries, List.mem_flatMap]
      constructor
      · rintro ⟨c, hc, hxc⟩
        obtain ⟨hce, hcp, hcne, _, _⟩ := hchild c hc
        rcases mem_block hxc with rfl | ⟨hd, hxw⟩
        · exact ⟨hce, isUnder_of_parentOf hcne hcp⟩
        · obtain ⟨_, hiff⟩ := ihc c hc hd
          obtain ⟨hxe, hxu⟩ := (hiff x).mp hxw
          exact ⟨hxe, isUnder_trans (isUnder_of_parentOf hcne hcp) hxu⟩
      · rintro ⟨hxe, hxu⟩
        by_cases hpx : parentOf x.relativePath = parent
        · exact ⟨x, mem_childrenSorted_iff.mpr ⟨hxe, hpx⟩, List.mem_cons_self _ _⟩
        · obtain ⟨q, hqne, hqpar, hqu⟩ :=
            exists_intermediate (hwf.1 x hxe) hxu hpx
          have hqmem : SkillFileEntry.mk q true ∈ entries := ancestor_mem hwf hxe hqne hqu
          have hqcs : SkillFileEntry.mk q true ∈ childrenSorted entries parent :=
            mem_childrenSorted_iff.mpr ⟨hqmem, hqpar⟩
          refine ⟨SkillFileEntry.mk q true, hqcs, ?_⟩
          obtain ⟨_, hiff⟩ := ihc _ hqcs rfl
          refine List.mem_cons.mpr (Or.inr ?_)
          rw [if_pos rfl]
          exact (hiff x).mpr ⟨hxe, hqu⟩

/-- `sortEntries` lists exactly the entries with a non-empty path, without
duplicates, on well-formed inputs. -/
theorem sortEntries_spec {entries : List SkillFileEntry} (hwf : wfEntries entries) :
    (sortEntries entries).Nodup ∧
    (∀ x, x ∈ sortEntries entries ↔ x ∈ entries ∧ isUnder [] x.relativePath) := by
  unfold sortEntries
  exact walk_spec hwf (walkMeasure entries []) [] (entries.length + 1) le_rfl
    (walkMeasure_le entries [])

theorem sortEntries_perm {entries : List SkillFileEntry} (hwf : wfEntries entries) :
    (sortEntries entries).Perm entries := by
  obtain ⟨hnd, hmem⟩ := sortEntries_spec hwf
  rw [List.perm_ext_iff_of_nodup hnd (List.Nodup.of_map _ hwf.2.1)]
  intro x
  rw [hmem x]
  constructor
  · exact fun h => h.1
  · intro hx
    refine ⟨hx, ?_⟩
    unfold isUnder
    rw [if_pos rfl]
    exact (hwf.1 x hx).1

theorem walk_fuel_irrel {entries : List SkillFileEntry} (hwf : wfEntries entries) :
    ∀ n parent f₁ f₂, walkMeasure entries parent ≤ n →
      walkMeasure entries parent ≤ f₁ → walkMeasure entries parent ≤ f₂ →
      walkEntries entries f₁ parent = walkEntries entries f₂ parent := by
  intro n
  induction n with
  | zero =>
    intro parent f₁ f₂ hn _ _
    have := walkMeasure_pos entries parent
    omega
  | succ n ih =>
    intro parent f₁ f₂ hn h1 h2
    obtain ⟨g₁, rfl⟩ : ∃ g, f₁ = g + 1 := by
      have := walkMeasure_pos entries parent
      exact ⟨f₁ - 1, by omega⟩
    obtain ⟨g₂, rfl⟩ : ∃ g, f₂ = g + 1 := by
      have := walkMeasure_pos entries parent
      exact ⟨f₂ - 1, by omega⟩
    simp only [walkEntries]
    rw [List.flatMap_def, List.flatMap_def]
    congr 1
    refine List.map_congr_left ?_
    intro c hc
    obtain ⟨hce, hcp⟩ := mem_childrenSorted_iff.mp hc
    have hcne := (hwf.1 c hce).1
    have hlt := walkMeasure_child_lt hce hcne hcp
    by_cases hd : c.isDir = true
    · rw [if_pos hd, if_pos hd, ih c.relativePath g₁ g₂ (by omega) (by omega) (by omega)]
    · rw [if_neg hd, if_neg hd]

/-- Each directory in the walk is immediately followed by its own recursively
listed subtree. -/
theorem walk_block {entries : List SkillFileEntry} (hwf : wfEntries entries) :
    ∀ n parent fuel d, walkMeasure entries parent ≤ n → walkMeasure entries parent ≤ fuel →
      d ∈ walkEntries entries fuel parent → d.isDir = true →
      ∃ A B, walkEntries entries fuel parent =
        A ++ d :: ((walkEntries entries (walkMeasure entries d.relativePath) d.relativePath) ++ B) := by
  intro n
  induction n with
  | zero =>
    intro parent fuel d hn _ _ _
    have := walkMeasure_pos entries parent
    omega
  | succ n ih =>
    intro parent fuel d hn hfuel hd hdir
    obtain ⟨f, rfl⟩ : ∃ f, fuel = f + 1 := by
      have := walkMeasure_pos entries parent
      exact ⟨fuel - 1, by omega⟩
    rw [walkEntries_succ, List.mem_flatMap] at hd
    obtain ⟨c, hc, hdc⟩ := hd
    obtain ⟨hce, hcp⟩ := mem_childrenSorted_iff.mp hc
    have hcne := (hwf.1 c hce).1
    have hlt := walkMeasure_child_lt hce hcne hcp
    obtain ⟨s, t, hst⟩ := List.append_of_mem hc
    rcases mem_block hdc with rfl | ⟨hcd, hdw⟩
    · refine ⟨s.flatMap (fun child => child ::
          (if child.isDir = true then walkEntries entries f child.relativePath else [])),
        t.flatMap (fun child => child ::
          (if child.isDir = true then walkEntries entries f child.relativePath else [])), ?_⟩
      rw [walkEntries_succ]
      rw [hst, List.flatMap_append, List.flatMap_cons, if_pos hdir]
      rw [walk_fuel_irrel hwf (walkMeasure entries d.relativePath) d.relativePath f
        (walkMeasure entries d.relativePath) le_rfl (by omega) le_rfl]
      simp only [List.append_assoc, List.cons_append, List.append_nil, List.nil_append]
    · obtain ⟨A', B', hAB⟩ := ih c.relativePath f d (by omega) (by omega) hdw hdir
      refine ⟨(s.flatMap (fun child => child ::
          (if child.isDir = true then walkEntries entries f child.relativePath else []))) ++ c :: A',
        B' ++ t.flatMap (fun child => child ::
          (if child.isDir = true then walkEntries entries f child.relativePath else [])), ?_⟩
      rw [walkEntries_succ]
      rw [hst, List.flatMap_append, List.flatMap_cons, if_pos hcd, hAB]
      simp only [List.append_assoc, List.cons_append, List.append_nil, List.nil_append]

/-! ## Order of the listing -/

theorem pair_sublist_of_split {α : Type} {l l₁ l₂ l₃ : List α} {x y : α}
    (h : l = l₁ ++ x :: (l₂ ++ y :: l₃)) : ([x, y]).Sublist l := by
  subst h
  refine List.Sublist.trans ?_ (List.sublist_append_right l₁ _)
  refine List.Sublist.cons₂ x ?_
  refine List.Sublist.trans ?_ (List.sublist_append_right l₂ _)
  exact List.Sublist.cons₂ y (List.nil_sublist l₃)

theorem rel_of_pairwise_split {α : Type} {R : α → α → Prop} {l l₁ l₂ l₃ : List α} {x y : α}
    (hp : List.Pairwise R l) (h : l = l₁ ++ x :: (l₂ ++ y :: l₃)) : R x y := by
  have hpair : List.Pairwise R [x, y] := List.Pairwise.sublist (pair_sublist_of_split h) hp
  exact (List.pairwise_cons.mp hpair).1 y (List.mem_cons_self y [])

theorem mem_split_pair {α : Type} {l : List α} {x y : α}
    (hx : x ∈ l) (hy : y ∈ l) (hxy : x ≠ y) :
    (∃ l₁ l₂ l₃, l = l₁ ++ x :: (l₂ ++ y :: l₃)) ∨
    (∃ l₁ l₂ l₃, l = l₁ ++ y :: (l₂ ++ x :: l₃)) := by
  obtain ⟨s, t, rfl⟩ := List.append_of_mem hx
  rcases List.mem_append.mp hy with hys | hyt
  · obtain ⟨u, v, rfl⟩ := List.append_of_mem hys
    right
    exact ⟨u, v, t, by simp⟩
  · rcases List.mem_cons.mp hyt with heq | hyt
    · exact absurd heq.symm hxy
    · obtain ⟨u, v, rfl⟩ := List.append_of_mem hyt
      left
      exact ⟨s, u, v, by simp⟩

theorem sibling_precedes {entries : List SkillFileEntry} (hwf : wfEntries entries)
    {x y : SkillFileEntry}
    (hx : x ∈ sortEntries entries) (hy : y ∈ sortEntries entries) (hxy : x ≠ y)
    (hpar : parentOf x.relativePath = parentOf y.relativePath)
    (hlt : ¬ entryLe y x) :
    ∃ l₁ l₂ l₃, sortEntries entries = l₁ ++ x :: (l₂ ++ y :: l₃) := by
  obtain ⟨hnd, hmem⟩ := sortEntries_spec hwf
  obtain ⟨hxe, hxu⟩ := (hmem x).mp hx
  obtain ⟨hye, _⟩ := (hmem y).mp hy
  obtain ⟨parent, hparent⟩ : ∃ parent, parentOf x.relativePath = parent := ⟨_, rfl⟩
  have hxcs : x ∈ childrenSorted entries parent :=
    mem_childrenSorted_iff.mpr ⟨hxe, hparent⟩
  have hycs : y ∈ childrenSorted entries parent :=
    mem_childrenSorted_iff.mpr ⟨hye, by rw [← hpar]; exact hparent⟩
  have hcs : ∃ c₁ c₂ c₃, childrenSorted entries parent = c₁ ++ x :: (c₂ ++ y :: c₃) := by
    rcases mem_split_pair hxcs hycs hxy with h | h
    · exact h
    · obtain ⟨c₁, c₂, c₃, hsplit⟩ := h
      exact absurd (rel_of_pairwise_split (childrenSorted_sorted entries parent) hsplit) hlt
  obtain ⟨c₁, c₂, c₃, hcs⟩ := hcs
  -- split the canonical walk below `parent`
  obtain ⟨g, hg⟩ : ∃ g, walkMeasure entries parent = g + 1 :=
    ⟨walkMeasure entries parent - 1, by have := walkMeasure_pos entries parent; omega⟩
  have hwalkAt : ∃ l₁ l₂ l₃,
      walkEntries entries (walkMeasure entries parent) parent = l₁ ++ x :: (l₂ ++ y :: l₃) := by
    rw [hg, walkEntries_succ, hcs]
    rw [List.flatMap_append, List.flatMap_cons, List.flatMap_append, List.flatMap_cons]
    refine ⟨c₁.flatMap (fun child => child ::
        (if child.isDir = true then walkEntries entries g child.relativePath else [])),
      (if x.isDir = true then walkEntries entries g x.relativePath else []) ++
        c₂.flatMap (fun child => child ::
          (if child.isDir = true then walkEntries entries g child.relativePath else [])),
      (if y.isDir = true then walkEntries entries g y.relativePath else []) ++
        c₃.flatMap (fun child => child ::
          (if child.isDir = true then walkEntries entries g child.relativePath else [])), ?_⟩
    simp only [List.append_assoc, List.cons_append, List.append_nil, List.nil_append]
  obtain ⟨l₁, l₂, l₃, hwalkAt⟩ := hwalkAt
  by_cases hpe : parent = []
  · subst hpe
    refine ⟨l₁, l₂, l₃, ?_⟩
    unfold sortEntries
    rw [walk_fuel_irrel hwf (walkMeasure entries []) [] (entries.length + 1)
      (walkMeasure entries []) le_rfl (walkMeasure_le entries []) le_rfl]
    exact hwalkAt
  · have hxne : x.relativePath ≠ [] := (hwf.1 x hxe).1
    have hxunder : isUnder parent x.relativePath := isUnder_of_parentOf hxne hparent
    have hdmem : SkillFileEntry.mk parent true ∈ entries := ancestor_mem hwf hxe hpe hxunder
    have hdsort : SkillFileEntry.mk parent true ∈ sortEntries entries := by
      rw [hmem]
      refine ⟨hdmem, ?_⟩
      unfold isUnder
      rw [if_pos rfl]
      exact hpe
    obtain ⟨A, B, hAB⟩ := walk_block hwf (walkMeasure entries []) [] (entries.length + 1)
      (SkillFileEntry.mk parent true) le_rfl (walkMeasure_le entries []) hdsort rfl
    refine ⟨A ++ (SkillFileEntry.mk parent true) :: l₁, l₂, l₃ ++ B, ?_⟩
    show sortEntries entries = _
    unfold sortEntries
    rw [hAB]
    show _ = (A ++ (SkillFileEntry.mk parent true) :: l₁) ++ x :: (l₂ ++ y :: (l₃ ++ B))
    rw [hwalkAt]
    simp only [List.append_assoc, List.cons_append, List.append_nil, List.nil_append]

/-! ## Claim C8 and C9: order and completeness of the listing -/

/-- A small well-formed entry list used to instantiate the listing theorems. -/
def sampleEntries : List SkillFileEntry :=
  [SkillFileEntry.mk ("a".toList) true,
   SkillFileEntry.mk ("a/f.md".toList) false,
   SkillFileEntry.mk ("SKILL.md".toList) false]

/-- C8: for every well-formed list of file entries (valid, duplicate-free
paths, closed under parents), the order produced by `sortEntries` is a
depth-first tree order: (1) among entries sharing a parent, a directory
precedes a file, and same-kind siblings are ordered lexicographically by
base name; (2) every directory is immediately followed by exactly its own
recursively ordered descendants — nothing else appears between the directory
and its subtree block.  Equal inputs always yield the identical output:
the model is a pure function, so determinism is immediate. -/
theorem sortEntries_listing_order (entries : List SkillFileEntry) (hwf : wfEntries entries) :
    (∀ x y, x ∈ sortEntries entries → y ∈ sortEntries entries → x ≠ y →
      parentOf x.relativePath = parentOf y.relativePath →
      ((x.isDir = true ∧ y.isDir = false) ∨
        (x.isDir = y.isDir ∧ basenameOf x.relativePath < basenameOf y.relativePath)) →
      ∃ l₁ l₂ l₃, sortEntries entries = l₁ ++ x :: (l₂ ++ y :: l₃))
    ∧
    (∀ d, d ∈ sortEntries entries → d.isDir = true →
      ∃ A desc B, sortEntries entries = A ++ d :: (desc ++ B) ∧
        (∀ e, e ∈ desc ↔ e ∈ entries ∧ isUnder d.relativePath e.relativePath) ∧
        (∀ e ∈ A, ¬ isUnder d.relativePath e.relativePath) ∧
        (∀ e ∈ B, ¬ isUnder d.relativePath e.relativePath)) := by
  obtain ⟨hnd, hmem⟩ := sortEntries_spec hwf
  constructor
  · intro x y hx hy hxy hpar hstrict
    refine sibling_precedes hwf hx hy hxy hpar ?_
    unfold entryLe
    rcases hstrict with ⟨hxd, hyd⟩ | ⟨hkind, hbn⟩
    · rw [hyd, hxd]
      simp
    · rw [if_pos hkind.symm]
      exact not_le.mpr hbn
  · intro d hd hdir
    obtain ⟨A, B, hAB⟩ := walk_block hwf (walkMeasure entries []) [] (entries.length + 1) d
      le_rfl (walkMeasure_le entries []) (by unfold sortEntries at hd; exact hd) hdir
    obtain ⟨hnodesc, hmemdesc⟩ := walk_spec hwf (walkMeasure entries d.relativePath)
      d.relativePath (walkMeasure entries d.relativePath) le_rfl le_rfl
    have hAB' : sortEntries entries =
        A ++ d :: ((walkEntries entries (walkMeasure entries d.relativePath) d.relativePath) ++ B) := by
      unfold sortEntries
      exact hAB
    refine ⟨A, _, B, hAB', ?_, ?_, ?_⟩
    · intro e
      exact hmemdesc e
    · intro e heA hunder
      have hesort : e ∈ sortEntries entries := by
        rw [hAB']
        exact List.mem_append.mpr (Or.inl heA)
      have heent : e ∈ entries := ((hmem e).mp hesort).1
      have hedesc : e ∈ walkEntries entries (walkMeasure entries d.relativePath) d.relativePath :=
        (hmemdesc e).mpr ⟨heent, hunder⟩
      have hnd' := hnd
      rw [hAB'] at hnd'
      obtain ⟨_, _, hdisj⟩ := List.nodup_append.mp hnd'
      exact hdisj heA (List.mem_cons.mpr (Or.inr (List.mem_append.mpr (Or.inl hedesc))))
    · intro e heB hunder
      have hesort : e ∈ sortEntries entries := by
        rw [hAB']
        refine List.mem_append.mpr (Or.inr ?_)
        exact List.mem_cons.mpr (Or.inr (List.mem_append.mpr (Or.inr heB)))
      have heent : e ∈ entries := ((hmem e).mp hesort).1
      have hedesc : e ∈ walkEntries entries (walkMeasure entries d.relativePath) d.relativePath :=
        (hmemdesc e).mpr ⟨heent, hunder⟩
      have hnd' := hnd
      rw [hAB'] at hnd'
      obtain ⟨_, htail, _⟩ := List.nodup_append.mp hnd'
      obtain ⟨_, htail2⟩ := List.nodup_cons.mp htail
      obtain ⟨_, _, hdisj2⟩ := List.nodup_append.mp htail2
      exact hdisj2 hedesc heB

/-- Witness for C8 at a concrete well-formed entry list: the root directory
`a` precedes the root file `SKILL.md`, and the directory `a` is immediately
followed by exactly its descendants. -/
theorem sortEntries_listing_order_witness :
    wfEntries sampleEntries ∧
    (∃ l₁ l₂ l₃, sortEntries sampleEntries =
      l₁ ++ (SkillFileEntry.mk ("a".toList) true) ::
        (l₂ ++ (SkillFileEntry.mk ("SKILL.md".toList) false) :: l₃)) ∧
    (∃ A desc B, sortEntries sampleEntries =
      A ++ (SkillFileEntry.mk ("a".toList) true) :: (desc ++ B) ∧
      (∀ e, e ∈ desc ↔ e ∈ sampleEntries ∧ isUnder ("a".toList) e.relativePath) ∧
      (∀ e ∈ A, ¬ isUnder ("a".toList) e.relativePath) ∧
      (∀ e ∈ B, ¬ isUnder ("a".toList) e.relativePath)) :=
  ⟨by decide,
    (sortEntries_listing_order sampleEntries (by decide)).1
      (SkillFileEntry.mk ("a".toList) true) (SkillFileEntry.mk ("SKILL.md".toList) false)
      (by decide) (by decide) (by decide) (by decide) (by decide),
    (sortEntries_listing_order sampleEntries (by decide)).2
      (SkillFileEntry.mk ("a".toList) true) (by decide) rfl⟩

/-- C9: on every entry list that is closed under parents (with valid,
duplicate-free paths), `sortEntries` returns a permutation of its input: no
entry is lost and none is duplicated.  Without that precondition an entry
whose ancestor directory is absent is silently dropped: the second conjunct
exhibits this on the single-entry list `a/b`. -/
theorem sortEntries_permutation_closed (entries : List SkillFileEntry)
    (hwf : wfEntries entries) :
    (sortEntries entries).Perm entries ∧
    sortEntries [SkillFileEntry.mk ("a/b".toList) false] = [] :=
  ⟨sortEntries_perm hwf, by decide⟩

/-- Witness for C9 at a concrete closed entry list. -/
theorem sortEntries_permutation_closed_witness :
    wfEntries sampleEntries ∧
    (sortEntries sampleEntries).Perm sampleEntries ∧
    sortEntries [SkillFileEntry.mk ("a/b".toList) false] = [] :=
  ⟨by decide,
    (sortEntries_permutation_closed sampleEntries (by decide)).1,
    (sortEntries_permutation_closed sampleEntries (by decide)).2⟩

/-! ## Claim C2 and C10: the path validator and the markdown-path helper -/

/-- C2 (amended): `normalizeRelativePath` normalizes backslashes to slashes
and strips leading separators; it rejects every input containing a `".."`
segment (after backslash normalization), no matter how the segment is
disguised; and every accepted result is non-empty, never starts with a
separator, contains no backslash, and has no empty segment and no `".."`
segment.  (`"."` segments, however, are passed through verbatim — the
original claim's "collapses `.` segments" fails; see the counterexample.) -/
theorem normalizeRelativePath_path_safety (input r : JStr) :
    (['.', '.'] ∈ jsSegments (jsBackslashToSlash input) →
      normalizeRelativePath input = none) ∧
    (normalizeRelativePath input = some r →
      r ≠ [] ∧ r.head? ≠ some '/' ∧ (∀ x ∈ r, x ≠ '\\') ∧
      (∀ seg ∈ jsSegments r, seg ≠ [] ∧ seg ≠ ['.', '.'])) :=
  ⟨fun h => normalizeRelativePath_rejects_dotdot h,
   fun h => normalizeRelativePath_some_spec h⟩

/-- Counterexample to C2 as stated: a `"."` segment is not collapsed; the
validator returns `a/./b` unchanged rather than `a/b`. -/
theorem normalizeRelativePath_dot_not_collapsed :
    normalizeRelativePath ("a/./b".toList) = some ("a/./b".toList) ∧
    ['.'] ∈ jsSegments ("a/./b".toList) ∧
    normalizeRelativePath ("a/./b".toList) ≠ some ("a/b".toList) := by decide

/-- Witness for C2 at concrete inputs: a backslash-disguised traversal is
rejected, and an ordinary path is accepted in safe shape. -/
theorem normalizeRelativePath_path_safety_witness :
    normalizeRelativePath ("a\\..\\b".toList) = none ∧
    (("docs/readme".toList : JStr) ≠ [] ∧
      ("docs/readme".toList : JStr).head? ≠ some '/' ∧
      (∀ x ∈ ("docs/readme".toList : JStr), x ≠ '\\') ∧
      (∀ seg ∈ jsSegments ("docs/readme".toList), seg ≠ [] ∧ seg ≠ ['.', '.'])) :=
  ⟨(normalizeRelativePath_path_safety ("a\\..\\b".toList) []).1 (by decide),
   (normalizeRelativePath_path_safety ("docs/readme".toList) ("docs/readme".toList)).2
     (by decide)⟩

/-- C10 (amended): every accepted result of `ensureMarkdownPath` ends with
`".md"` case-insensitively; and `ensureMarkdownPath` is idempotent on every
accepted result that does not begin with whitespace and does not contain two
consecutive dots.  (Unrestricted idempotence fails; see the
counterexample.) -/
theorem ensureMarkdownPath_md_suffix_and_idem (input r : JStr) :
    (ensureMarkdownPath input = some r → ['.', 'm', 'd'] <:+ jsToLower r) ∧
    (ensureMarkdownPath input = some r →
      r.head?.all (fun c => !c.isWhitespace) = true →
      jsIncludes ['.', '.'] r = false →
      ensureMarkdownPath r = some r) := by
  refine ⟨fun h => ensureMarkdownPath_ends_md h, fun h h1 h2 => ?_⟩
  refine ensureMarkdownPath_idem h ?_ h2
  intro c hc
  rw [hc] at h1
  simpa using h1

/-- Counterexample to C10 as stated: `ensureMarkdownPath` is not idempotent.
`"a."` is accepted as `"a..md"`, but re-applying the function to that result
rejects it (the appended suffix manufactured a `".."`). -/
theorem ensureMarkdownPath_not_idempotent :
    ensureMarkdownPath ("a.".toList) = some ("a..md".toList) ∧
    ensureMarkdownPath ("a..md".toList) = none := by decide

/-- Witness for C10 at a concrete input. -/
theorem ensureMarkdownPath_md_suffix_and_idem_witness :
    (['.', 'm', 'd'] <:+ jsToLower ("notes/idea.md".toList)) ∧
    ensureMarkdownPath ("notes/idea.md".toList) = some ("notes/idea.md".toList) :=
  ⟨(ensureMarkdownPath_md_suffix_and_idem ("notes/idea".toList) ("notes/idea.md".toList)).1
      (by decide),
   (ensureMarkdownPath_md_suffix_and_idem ("notes/idea".toList) ("notes/idea.md".toList)).2
      (by decide) (by decide) (by decide)⟩

/-! ## The editor state (`SkillEditorDialog` component state) -/

/-- The path-keyed component state of `SkillEditorDialog`: the entry list and
every path-keyed shadow structure (content map, saved-snapshot map, dirty
set, collapsed set, selected file), plus the dialog mode flags and the
unsaved-changes prompt state. -/
structure EditorState where
  modeEdit : Bool
  hasSkillPath : Bool
  entries : List SkillFileEntry
  selectedFile : JStr
  contentByFile : List (JStr × JStr)
  savedByFile : List (JStr × JStr)
  dirtyFiles : List JStr
  collapsedDirs : List JStr
  pendingEntry : Option SkillFileEntry
  unsavedSwitchOpen : Bool
deriving DecidableEq

/-- JS object read `m[k]`. -/
def recGet (m : List (JStr × JStr)) (k : JStr) : Option JStr :=
  (m.find? (fun kv => kv.1 = k)).map (fun kv => kv.2)

/-- JS object functional update `{ ...m, [k]: v }`. -/
def recSet (m : List (JStr × JStr)) (k v : JStr) : List (JStr × JStr) :=
  if m.any (fun kv => kv.1 = k) then
    m.map (fun kv => if kv.1 = k then (k, v) else kv)
  else m ++ [(k, v)]

/-- JS `Set.add`. -/
def setAdd (s : List JStr) (k : JStr) : List JStr :=
  if k ∈ s then s else s ++ [k]

/-- JS `Set.delete`. -/
def setRemove (s : List JStr) (k : JStr) : List JStr :=
  s.filter (fun x => x ≠ k)

theorem mem_setAdd {s : List JStr} {k x : JStr} : x ∈ setAdd s k ↔ x ∈ s ∨ x = k := by
  unfold setAdd
  by_cases hk : k ∈ s
  · rw [if_pos hk]
    constructor
    · exact Or.inl
    · rintro (h | rfl)
      · exact h
      · exact hk
  · rw [if_neg hk]
    simp

theorem mem_setRemove {s : List JStr} {k x : JStr} : x ∈ setRemove s k ↔ x ∈ s ∧ x ≠ k := by
  unfold setRemove
  rw [List.mem_filter]
  simp

theorem recGet_recSet_self (m : List (JStr × JStr)) (k v : JStr) :
    recGet (recSet m k v) k = some v := by
  unfold recSet
  by_cases hmem : m.any (fun kv => kv.1 = k) = true
  · rw [if_pos hmem]
    unfold recGet
    induction m with
    | nil => simp at hmem
    | cons a m ih =>
      by_cases ha : a.1 = k
      · rw [List.map_cons, if_pos ha, List.find?_cons_of_pos _ (by simp)]
        simp
      · rw [List.map_cons, if_neg ha, List.find?_cons_of_neg _ (by simp [ha])]
        refine ih ?_
        rw [List.any_cons] at hmem
        simpa [ha] using hmem
  · rw [if_neg hmem]
    unfold recGet
    rw [List.find?_append]
    have hform : m.find? (fun kv => kv.1 = k) = none := by
      rw [List.find?_eq_none]
      intro kv hkv
      simp only [decide_eq_true_eq]
      intro hc
      rw [Bool.not_eq_true, List.any_eq_false] at hmem
      have := hmem kv hkv
      simp [hc] at this
    rw [hform]
    simp [List.find?]

theorem recGet_recSet_other {m : List (JStr × JStr)} {k k' v : JStr} (hne : k' ≠ k) :
    recGet (recSet m k v) k' = recGet m k' := by
  unfold recSet
  by_cases hmem : m.any (fun kv => kv.1 = k) = true
  · rw [if_pos hmem]
    unfold recGet
    clear hmem
    induction m with
    | nil => simp
    | cons a m ih =>
      by_cases ha : a.1 = k
      · rw [List.map_cons, if_pos ha]
        rw [List.find?_cons_of_neg _ (by simp [Ne.symm hne]),
          List.find?_cons_of_neg _ (by simp [ha, Ne.symm hne])]
        exact ih
      · rw [List.map_cons, if_neg ha]
        by_cases ha' : a.1 = k'
        · rw [List.find?_cons_of_pos _ (by simp [ha']), List.find?_cons_of_pos _ (by simp [ha'])]
        · rw [List.find?_cons_of_neg _ (by simp [ha']), List.find?_cons_of_neg _ (by simp [ha'])]
          exact ih
  · rw [if_neg hmem]
    unfold recGet
    rw [List.find?_append]
    have hlast : ([(k, v)] : List (JStr × JStr)).find? (fun kv => kv.1 = k') = none := by
      rw [List.find?_eq_none]
      intro kv hkv
      rw [List.mem_singleton] at hkv
      subst hkv
      simp [Ne.symm hne]
    rw [hlast]
    cases hfind : m.find? (fun kv => kv.1 = k') <;> simp

theorem recKeys_recSet {m : List (JStr × JStr)} {k v f : JStr} :
    f ∈ (recSet m k v).map (fun kv => kv.1) ↔ f ∈ m.map (fun kv => kv.1) ∨ f = k := by
  unfold recSet
  by_cases hmem : m.any (fun kv => kv.1 = k) = true
  · rw [if_pos hmem]
    rw [List.map_map]
    constructor
    · intro h
      obtain ⟨kv, hkv, hf⟩ := List.mem_map.mp h
      simp only [Function.comp] at hf
      by_cases ha : kv.1 = k
      · rw [if_pos ha] at hf
        exact Or.inr hf.symm
      · rw [if_neg ha] at hf
        exact Or.inl (List.mem_map.mpr ⟨kv, hkv, hf⟩)
    · rintro (h | rfl)
      · obtain ⟨kv, hkv, hf⟩ := List.mem_map.mp h
        refine List.mem_map.mpr ⟨kv, hkv, ?_⟩
        simp only [Function.comp]
        by_cases ha : kv.1 = k
        · rw [if_pos ha]
          rw [← hf, ha]
        · rw [if_neg ha]
          exact hf
      · rw [List.any_eq_true] at hmem
        obtain ⟨kv, hkv, hk⟩ := hmem
        simp only [decide_eq_true_eq] at hk
        refine List.mem_map.mpr ⟨kv, hkv, ?_⟩
        simp only [Function.comp]
        rw [if_pos hk]
  · rw [if_neg hmem]
    rw [List.map_append, List.mem_append]
    simp

/-! ## Editing transitions (SkillEditorDialog.tsx 225-332, 780-795) -/

/-- The Monaco `onChange` handler (lines 780-795): store the new text for the
selected file and recompute its dirty flag against the saved snapshot. -/
def editorOnChange (st : EditorState) (value : JStr) : EditorState :=
  { st with
    contentByFile := recSet st.contentByFile st.selectedFile value,
    dirtyFiles :=
      if value ≠ (recGet st.savedByFile st.selectedFile).getD [] then
        setAdd st.dirtyFiles st.selectedFile
      else setRemove st.dirtyFiles st.selectedFile }

/-- `saveCurrentFile` (lines 250-278), success path of the backend call. -/
def saveCurrentFile (st : EditorState) : EditorState :=
  if st.modeEdit = false ∨ st.hasSkillPath = false ∨ st.selectedFile = [] then st
  else if st.selectedFile ∈ st.dirtyFiles then
    { st with
      savedByFile := recSet st.savedByFile st.selectedFile
        ((recGet st.contentByFile st.selectedFile).getD []),
      dirtyFiles := setRemove st.dirtyFiles st.selectedFile }
  else st

/-- `loadFile` (lines 225-248), with the text read from disk supplied as a
parameter. -/
def loadFile (st : EditorState) (relativePath diskText : JStr) : EditorState :=
  if (recGet st.contentByFile relativePath).isSome then st
  else if st.hasSkillPath = false ∨ st.modeEdit = false then
    { st with contentByFile := recSet st.contentByFile relativePath [] }
  else
    { st with
      contentByFile := recSet st.contentByFile relativePath diskText,
      savedByFile := recSet st.savedByFile relativePath diskText,
      dirtyFiles := setRemove st.dirtyFiles relativePath }

/-- `onSelectEntry` (lines 280-300): toggle directories; block the switch
behind the unsaved-changes prompt when the current file is dirty. -/
def onSelectEntry (st : EditorState) (entry : SkillFileEntry) (diskText : JStr) : EditorState :=
  if entry.isDir = true then
    { st with collapsedDirs :=
        if entry.relativePath ∈ st.collapsedDirs then setRemove st.collapsedDirs entry.relativePath
        else setAdd st.collapsedDirs entry.relativePath }
  else if st.modeEdit = true ∧ st.selectedFile ≠ entry.relativePath ∧
      st.selectedFile ∈ st.dirtyFiles then
    { st with pendingEntry := some entry, unsavedSwitchOpen := true }
  else
    loadFile { st with selectedFile := entry.relativePath } entry.relativePath diskText

/-- The paths the dirty-tracking invariant ranges over. -/
def trackedKeys (st : EditorState) : List JStr :=
  st.contentByFile.map (fun kv => kv.1) ++ st.savedByFile.map (fun kv => kv.1) ++ st.dirtyFiles

/-- A file is dirty exactly when its current content differs from its saved
snapshot. -/
def dirtyInv (st : EditorState) : Prop :=
  ∀ f ∈ trackedKeys st,
    (f ∈ st.dirtyFiles ↔
      (recGet st.contentByFile f).getD [] ≠ (recGet st.savedByFile f).getD [])

instance : ∀ st, Decidable (dirtyInv st) := fun st => by
  unfold dirtyInv
  infer_instance

theorem dirtyInv_onChange (st : EditorState) (v : JStr) (hinv : dirtyInv st) :
    dirtyInv (editorOnChange st v) := by
  intro f hf
  unfold editorOnChange at hf ⊢
  simp only [trackedKeys, List.mem_append] at hf ⊢
  by_cases hfs : f = st.selectedFile
  · subst hfs
    rw [recGet_recSet_self]
    by_cases hv : v ≠ (recGet st.savedByFile st.selectedFile).getD []
    · rw [if_pos hv]
      simp only [Option.getD_some]
      constructor
      · intro _
        exact hv
      · intro _
        exact mem_setAdd.mpr (Or.inr rfl)
    · rw [if_neg hv]
      simp only [Option.getD_some]
      constructor
      · intro hmem
        exact absurd (mem_setRemove.mp hmem).2 (by simp)
      · intro hcontra
        exact absurd hcontra hv
  · rw [recGet_recSet_other hfs]
    have hdirty : (if v ≠ (recGet st.savedByFile st.selectedFile).getD [] then
        setAdd st.dirtyFiles st.selectedFile
      else setRemove st.dirtyFiles st.selectedFile) = st.dirtyFiles ∨
        (∀ x, x ≠ st.selectedFile →
          (x ∈ (if v ≠ (recGet st.savedByFile st.selectedFile).getD [] then
            setAdd st.dirtyFiles st.selectedFile
          else setRemove st.dirtyFiles st.selectedFile) ↔ x ∈ st.dirtyFiles)) := by
      right
      intro x hx
      by_cases hv : v ≠ (recGet st.savedByFile st.selectedFile).getD []
      · rw [if_pos hv]
        rw [mem_setAdd]
        constructor
        · rintro (h | rfl)
          · exact h
          · exact absurd rfl hx
        · exact Or.inl
      · rw [if_neg hv]
        rw [mem_setRemove]
        constructor
        · exact fun h => h.1
        · exact fun h => ⟨h, hx⟩
    rcases hdirty with hdirty | hdirty
    · rw [hdirty] at hf ⊢
      refine hinv f ?_
      unfold trackedKeys
      rw [List.mem_append, List.mem_append]
      rcases hf with (hf | hf) | hf
      · rcases recKeys_recSet.mp hf with hf | hf
        · exact Or.inl (Or.inl hf)
        · exact absurd hf hfs
      · exact Or.inl (Or.inr hf)
      · exact Or.inr hf
    · rw [hdirty f hfs]
      refine hinv f ?_
      unfold trackedKeys
      rw [List.mem_append, List.mem_append]
      rcases hf with (hf | hf) | hf
      · rcases recKeys_recSet.mp hf with hf | hf
        · exact Or.inl (Or.inl hf)
        · exact absurd hf hfs
      · exact Or.inl (Or.inr hf)
      · exact Or.inr ((hdirty f hfs).mp hf)

theorem dirtyInv_save (st : EditorState) (hinv : dirtyInv st)
    (hmode : st.modeEdit = true) (hpath : st.hasSkillPath = true)
    (hsel : st.selectedFile ≠ []) (hdirty : st.selectedFile ∈ st.dirtyFiles) :
    dirtyInv (saveCurrentFile st) := by
  intro f hf
  unfold saveCurrentFile at hf ⊢
  rw [if_neg (by simp [hmode, hpath, hsel]), if_pos hdirty] at hf ⊢
  simp only [trackedKeys, List.mem_append] at hf ⊢
  by_cases hfs : f = st.selectedFile
  · subst hfs
    rw [recGet_recSet_self]
    simp only [Option.getD_some]
    constructor
    · intro hmem
      exact absurd (mem_setRemove.mp hmem).2 (by simp)
    · intro hcontra
      exact absurd rfl hcontra
  · rw [recGet_recSet_other hfs]
    have hmemiff : f ∈ setRemove st.dirtyFiles st.selectedFile ↔ f ∈ st.dirtyFiles := by
      rw [mem_setRemove]
      exact ⟨fun h => h.1, fun h => ⟨h, hfs⟩⟩
    rw [hmemiff]
    refine hinv f ?_
    unfold trackedKeys
    rw [List.mem_append, List.mem_append]
    rcases hf with (hf | hf) | hf
    · exact Or.inl (Or.inl hf)
    · rcases recKeys_recSet.mp hf with hf | hf
      · exact Or.inl (Or.inr hf)
      · exact absurd hf hfs
    · exact Or.inr (hmemiff.mp hf)

/-! ## Claim C7: the dirty-tracking state machine -/

/-- A concrete editor state with one dirty tracked file. -/
def sampleState : EditorState :=
  { modeEdit := true
    hasSkillPath := true
    entries := sampleEntries
    selectedFile := "SKILL.md".toList
    contentByFile := [("SKILL.md".toList, "new text".toList)]
    savedByFile := [("SKILL.md".toList, "old text".toList)]
    dirtyFiles := ["SKILL.md".toList]
    collapsedDirs := []
    pendingEntry := none
    unsavedSwitchOpen := false }

/-- C7: the per-file dirty-tracking state machine.  (1) After every local
content change the invariant holds that a tracked file is in the dirty set
iff its current content differs from its last-saved snapshot, and the edited
file's dirty flag equals whether the new text differs from its snapshot.
(2) A successful save of the selected file updates the snapshot to the
current content, removes the file from the dirty set, and preserves the
invariant.  (3) Selecting a different file while the selected file is dirty
opens the unsaved-changes prompt instead of switching: the selection, the
dirty set and the content map are all unchanged, so dirty state is never
silently discarded. -/
theorem dirty_tracking_state_machine (st : EditorState) (v : JStr)
    (entry : SkillFileEntry) (diskText : JStr) (hinv : dirtyInv st) :
    (dirtyInv (editorOnChange st v) ∧
      (st.selectedFile ∈ (editorOnChange st v).dirtyFiles ↔
        v ≠ (recGet st.savedByFile st.selectedFile).getD [])) ∧
    (st.modeEdit = true → st.hasSkillPath = true → st.selectedFile ≠ [] →
      st.selectedFile ∈ st.dirtyFiles →
      (recGet (saveCurrentFile st).savedByFile st.selectedFile).getD [] =
        (recGet st.contentByFile st.selectedFile).getD [] ∧
      st.selectedFile ∉ (saveCurrentFile st).dirtyFiles ∧
      dirtyInv (saveCurrentFile st)) ∧
    (entry.isDir = false → st.modeEdit = true → entry.relativePath ≠ st.selectedFile →
      st.selectedFile ∈ st.dirtyFiles →
      (onSelectEntry st entry diskText).unsavedSwitchOpen = true ∧
      (onSelectEntry st entry diskText).pendingEntry = some entry ∧
      (onSelectEntry st entry diskText).selectedFile = st.selectedFile ∧
      (onSelectEntry st entry diskText).dirtyFiles = st.dirtyFiles ∧
      (onSelectEntry st entry diskText).contentByFile = st.contentByFile) := by
  refine ⟨⟨dirtyInv_onChange st v hinv, ?_⟩, ?_, ?_⟩
  · unfold editorOnChange
    by_cases hv : v ≠ (recGet st.savedByFile st.selectedFile).getD []
    · rw [if_pos hv]
      simp only []
      constructor
      · intro _
        exact hv
      · intro _
        exact mem_setAdd.mpr (Or.inr rfl)
    · rw [if_neg hv]
      simp only []
      constructor
      · intro hmem
        exact absurd (mem_setRemove.mp hmem).2 (by simp)
      · intro hcontra
        exact absurd hcontra hv
  · intro hmode hpath hsel hdirty
    refine ⟨?_, ?_, dirtyInv_save st hinv hmode hpath hsel hdirty⟩
    · unfold saveCurrentFile
      rw [if_neg (by simp [hmode, hpath, hsel]), if_pos hdirty]
      simp only []
      rw [recGet_recSet_self]
      rfl
    · unfold saveCurrentFile
      rw [if_neg (by simp [hmode, hpath, hsel]), if_pos hdirty]
      simp only []
      intro hmem
      exact absurd (mem_setRemove.mp hmem).2 (by simp)
  · intro hdir hmode hne hdirty
    have hcond : st.modeEdit = true ∧ st.selectedFile ≠ entry.relativePath ∧
        st.selectedFile ∈ st.dirtyFiles := ⟨hmode, Ne.symm hne, hdirty⟩
    unfold onSelectEntry
    rw [if_neg (by simp [hdir]), if_pos hcond]
    exact ⟨rfl, rfl, rfl, rfl, rfl⟩

/-- Witness for C7 at a concrete state: the invariant holds, and selecting a
different file while the current one is dirty opens the prompt. -/
theorem dirty_tracking_state_machine_witness :
    dirtyInv sampleState ∧
    (onSelectEntry sampleState (SkillFileEntry.mk ("a/f.md".toList) false) []).unsavedSwitchOpen =
      true :=
  ⟨by decide,
   (((dirty_tracking_state_machine sampleState ("x".toList)
       (SkillFileEntry.mk ("a/f.md".toList) false) [] (by decide)).2.2)
     rfl rfl (by decide) (by decide)).1⟩

/-! ## Claim C4: empty-directory deletion -/

/-- The error taxonomy relevant to directory deletion. -/
inductive SkillError
  | notEmpty
deriving DecidableEq

/-- Modelled from the spec: the backend command behind `deleteSkillEmptyDir`
(the Rust `delete_skill_empty_dir` handler is not part of the frontend
sources): "Deleting a directory requires it to contain zero entries", and a
non-empty directory fails with `NotEmpty`. -/
def deleteSkillEmptyDirBackend (entries : List SkillFileEntry) (dir : JStr) :
    Except SkillError Unit :=
  if entries.any (fun e => (dir ++ ['/']).isPrefixOf e.relativePath) then
    Except.error SkillError.notEmpty
  else Except.ok ()

/-- `deleteEmptyFolder` (SkillEditorDialog.tsx 496-514): silently refuse when
the folder has children; otherwise remove the entry and its collapsed flag.
The boolean reports whether the deletion was performed. -/
def deleteEmptyFolder (st : EditorState) (entry : SkillFileEntry) : EditorState × Bool :=
  if st.entries.any (fun e => (entry.relativePath ++ ['/']).isPrefixOf e.relativePath) then
    (st, false)
  else
    ({ st with
        entries := st.entries.filter (fun e => e.relativePath ≠ entry.relativePath),
        collapsedDirs := setRemove st.collapsedDirs entry.relativePath }, true)

/-- C4: deleting a non-empty directory removes nothing — the frontend guard
refuses, and the spec-modelled backend fails with `NotEmpty`; once every
child is gone, deleting the directory succeeds and removes it from the entry
list and from the collapsed-directory set, leaving every other entry in
place. -/
theorem deleteEmptyFolder_spec (st : EditorState) (entry : SkillFileEntry) :
    ((∃ e ∈ st.entries, (entry.relativePath ++ ['/']) <+: e.relativePath) →
      deleteEmptyFolder st entry = (st, false) ∧
      deleteSkillEmptyDirBackend st.entries entry.relativePath =
        Except.error SkillError.notEmpty) ∧
    ((∀ e ∈ st.entries, ¬ (entry.relativePath ++ ['/']) <+: e.relativePath) →
      (deleteEmptyFolder st entry).2 = true ∧
      deleteSkillEmptyDirBackend st.entries entry.relativePath = Except.ok () ∧
      entry.relativePath ∉
        ((deleteEmptyFolder st entry).1.entries.map (fun e => e.relativePath)) ∧
      entry.relativePath ∉ (deleteEmptyFolder st entry).1.collapsedDirs ∧
      (∀ e ∈ st.entries, e.relativePath ≠ entry.relativePath →
        e ∈ (deleteEmptyFolder st entry).1.entries) ∧
      (∀ e ∈ (deleteEmptyFolder st entry).1.entries, e ∈ st.entries)) := by
  constructor
  · rintro ⟨e, he, hpre⟩
    have hany : st.entries.any
        (fun e => (entry.relativePath ++ ['/']).isPrefixOf e.relativePath) = true := by
      rw [List.any_eq_true]
      exact ⟨e, he, List.isPrefixOf_iff_prefix.mpr hpre⟩
    constructor
    · unfold deleteEmptyFolder
      rw [if_pos hany]
    · unfold deleteSkillEmptyDirBackend
      rw [if_pos hany]
  · intro hnone
    have hany : st.entries.any
        (fun e => (entry.relativePath ++ ['/']).isPrefixOf e.relativePath) = false := by
      rw [List.any_eq_false]
      intro e he
      simp only [Bool.not_eq_true]
      rw [← Bool.not_eq_true, List.isPrefixOf_iff_prefix]
      exact hnone e he
    have hneg : ¬ st.entries.any
        (fun e => (entry.relativePath ++ ['/']).isPrefixOf e.relativePath) = true := by
      rw [hany]
      simp
    refine ⟨?_, ?_, ?_, ?_, ?_, ?_⟩
    · unfold deleteEmptyFolder
      rw [if_neg hneg]
    · unfold deleteSkillEmptyDirBackend
      rw [if_neg hneg]
    · unfold deleteEmptyFolder
      rw [if_neg hneg]
      simp only [List.mem_map]
      rintro ⟨e, hmem, hpath⟩
      exact absurd hpath (by simpa using (List.mem_filter.mp hmem).2)
    · unfold deleteEmptyFolder
      rw [if_neg hneg]
      simp only []
      intro hmem
      exact absurd (mem_setRemove.mp hmem).2 (by simp)
    · unfold deleteEmptyFolder
      rw [if_neg hneg]
      intro e he hne
      simp only []
      exact List.mem_filter.mpr ⟨he, by simpa using hne⟩
    · unfold deleteEmptyFolder
      rw [if_neg hneg]
      intro e he
      simp only [] at he
      exact (List.mem_filter.mp he).1

/-- Witness for C4: with a child present, deletion refuses and the backend
reports `NotEmpty`; after the child is gone, deletion succeeds. -/
theorem deleteEmptyFolder_spec_witness :
    (deleteEmptyFolder sampleState (SkillFileEntry.mk ("a".toList) true) =
      (sampleState, false) ∧
     deleteSkillEmptyDirBackend sampleState.entries ("a".toList) =
      Except.error SkillError.notEmpty) ∧
    ((deleteEmptyFolder
        { sampleState with entries := [SkillFileEntry.mk ("a".toList) true] }
        (SkillFileEntry.mk ("a".toList) true)).2 = true ∧
     deleteSkillEmptyDirBackend [SkillFileEntry.mk ("a".toList) true] ("a".toList) =
      Except.ok ()) :=
  ⟨(deleteEmptyFolder_spec sampleState (SkillFileEntry.mk ("a".toList) true)).1
     (by decide),
   ⟨((deleteEmptyFolder_spec
        { sampleState with entries := [SkillFileEntry.mk ("a".toList) true] }
        (SkillFileEntry.mk ("a".toList) true)).2 (by decide)).1,
    ((deleteEmptyFolder_spec
        { sampleState with entries := [SkillFileEntry.mk ("a".toList) true] }
        (SkillFileEntry.mk ("a".toList) true)).2 (by decide)).2.1⟩⟩

/-! ## Claim C5: folder creation -/

/-- Closure under immediate parents implies closure under all ancestors. -/
theorem closure_of_parent_closure {entries : List SkillFileEntry}
    (hval : ∀ e ∈ entries, validPath e.relativePath)
    (hpar : ∀ e ∈ entries, parentOf e.relativePath ≠ [] →
      SkillFileEntry.mk (parentOf e.relativePath) true ∈ entries) :
    ∀ e ∈ entries, ∀ q, q ≠ [] → isUnder q e.relativePath →
      SkillFileEntry.mk q true ∈ entries := by
  have main : ∀ n, ∀ e ∈ entries, e.relativePath.length ≤ n → ∀ q, q ≠ [] →
      isUnder q e.relativePath → SkillFileEntry.mk q true ∈ entries := by
    intro n
    induction n with
    | zero =>
      intro e he hlen q hq hu
      have := isUnder_length_lt hu
      omega
    | succ n ih =>
      intro e he hlen q hq hu
      have hene : e.relativePath ≠ [] := (hval e he).1
      rcases parentOf_of_isUnder hq hu with heq | hunder
      · exact heq ▸ hpar e he (heq.symm ▸ hq)
      · have hpne : parentOf e.relativePath ≠ [] := by
          intro hcontra
          rw [hcontra] at hunder
          exact absurd (isUnder_length_lt hunder) (by simp)
        have hpmem := hpar e he hpne
        have hplen : (parentOf e.relativePath).length < e.relativePath.length :=
          parentOf_length_lt hene rfl
        exact ih (SkillFileEntry.mk (parentOf e.relativePath) true) hpmem (by simpa using by omega)
          q hq hunder
  intro e he q hq hu
  exact main e.relativePath.length e he le_rfl q hq hu

theorem intercalate_append_single {M : List JStr} {x : JStr} (hM : M ≠ []) :
    jsJoinSlash (M ++ [x]) = jsJoinSlash M ++ '/' :: x := by
  unfold jsJoinSlash
  induction M with
  | nil => exact absurd rfl hM
  | cons a M ih =>
    cases M with
    | nil =>
      rw [List.cons_append, List.nil_append, intercalate_cons₂, intercalate_single,
        intercalate_single]
      simp
    | cons b M' =>
      have ih' := ih (List.cons_ne_nil b M')
      rw [List.cons_append] at ih'
      rw [List.cons_append, List.cons_append, intercalate_cons₂, ih', intercalate_cons₂]
      simp

theorem joinSlash_take_succ {L : List JStr} {k : Nat} (h1 : 1 ≤ k) (h2 : k < L.length) :
    jsJoinSlash (L.take (k + 1)) = jsJoinSlash (L.take k) ++ '/' :: (L.getD k []) := by
  rw [List.take_succ]
  have hget : L[k]? = some (L.getD k []) := by
    rw [List.getD_eq_getElem?_getD, List.getElem?_eq_getElem h2]
    rfl
  rw [hget]
  have htake : L.take k ≠ [] := by
    intro hc
    have hlen := congrArg List.length hc
    rw [List.length_take] at hlen
    simp only [List.length_nil] at hlen
    omega
  rw [show (some (L.getD k [])).toList = [L.getD k []] from rfl]
  exact intercalate_append_single htake

/-- Segments of an accepted normalized path, with their basic facts. -/
theorem segments_facts {folderPath normalized : JStr}
    (hnorm : normalizeRelativePath folderPath = some normalized) :
    (jsSegments normalized) ≠ [] ∧
    (∀ seg ∈ jsSegments normalized, seg ≠ [] ∧ '/' ∉ seg) := by
  obtain ⟨hne, _, _, hsegs⟩ := normalizeRelativePath_some_spec hnorm
  refine ⟨List.splitOnP_ne_nil _ _, ?_⟩
  intro seg hseg
  exact ⟨(hsegs seg hseg).1, not_mem_of_mem_splitOn hseg⟩

/-- The join of a non-empty prefix of the segments of `normalized`, as a
valid path. -/
theorem joinSlash_take_valid {L : List JStr}
    (hfacts : ∀ seg ∈ L, seg ≠ [] ∧ '/' ∉ seg) {i : Nat} (hi : i < L.length) :
    validPath (jsJoinSlash (L.take (i + 1))) ∧
    jsSegments (jsJoinSlash (L.take (i + 1))) = L.take (i + 1) := by
  have htakef : ∀ seg ∈ L.take (i + 1), seg ≠ [] ∧ '/' ∉ seg := by
    intro seg hseg
    exact hfacts seg (List.take_subset _ _ hseg)
  have htne : L.take (i + 1) ≠ [] := by
    intro hc
    have hlen := congrArg List.length hc
    rw [List.length_take] at hlen
    simp only [List.length_nil] at hlen
    omega
  have hsegsr : jsSegments (jsJoinSlash (L.take (i + 1))) = L.take (i + 1) := by
    unfold jsSegments jsJoinSlash
    exact List.splitOn_intercalate _ '/' (fun l hl => (htakef l hl).2) htne
  refine ⟨⟨?_, ?_⟩, hsegsr⟩
  · obtain ⟨x0, L', hL'⟩ : ∃ x0 L', L.take (i + 1) = x0 :: L' := by
      cases hc : L.take (i + 1) with
      | nil => exact absurd hc htne
      | cons x0 L' => exact ⟨x0, L', rfl⟩
    obtain ⟨y, t, hy, _⟩ := @head_ne_of_intercalate '/' (L.take (i + 1)) x0 L' hL'
      (htakef x0 (by rw [hL']; exact List.mem_cons_self _ _)).1
    unfold jsJoinSlash
    rw [hy]
    exact List.cons_ne_nil y t
  · intro seg hseg
    rw [hsegsr] at hseg
    exact (htakef seg hseg).1

/-- The ancestor-ensuring loop of `createFolder` (lines 345-352): for each
`i` from `1` to `parts.length`, append the directory `parts.slice(0, i)`
joined by `"/"` unless an equal directory entry is already present. -/
def addDirPrefixes (parts : List JStr) (acc : List SkillFileEntry) : Nat → List SkillFileEntry
  | 0 => acc
  | k + 1 =>
    let acc' := addDirPrefixes parts acc k
    let dir := jsJoinSlash (parts.take (k + 1))
    if acc'.any (fun e => decide (e.relativePath = dir) && e.isDir) then acc'
    else acc' ++ [SkillFileEntry.mk dir true]

theorem addDirPrefixes_extends (parts : List JStr) (acc : List SkillFileEntry) :
    ∀ k, ∃ news, addDirPrefixes parts acc k = acc ++ news := by
  intro k
  induction k with
  | zero => exact ⟨[], by simp [addDirPrefixes]⟩
  | succ k ih =>
    obtain ⟨news, hnews⟩ := ih
    unfold addDirPrefixes
    simp only []
    by_cases hguard : (addDirPrefixes parts acc k).any
        (fun e => decide (e.relativePath = jsJoinSlash (parts.take (k + 1))) && e.isDir) = true
    · rw [if_pos hguard]
      exact ⟨news, hnews⟩
    · rw [if_neg hguard]
      exact ⟨news ++ [SkillFileEntry.mk (jsJoinSlash (parts.take (k + 1))) true],
        by rw [hnews, List.append_assoc]⟩

theorem addDirPrefixes_present (parts : List JStr) (acc : List SkillFileEntry) :
    ∀ k, ∀ j < k,
      SkillFileEntry.mk (jsJoinSlash (parts.take (j + 1))) true ∈ addDirPrefixes parts acc k := by
  intro k
  induction k with
  | zero => intro j hj; omega
  | succ k ih =>
    intro j hj
    unfold addDirPrefixes
    simp only []
    by_cases hguard : (addDirPrefixes parts acc k).any
        (fun e => decide (e.relativePath = jsJoinSlash (parts.take (k + 1))) && e.isDir) = true
    · rw [if_pos hguard]
      by_cases hjk : j < k
      · exact ih j hjk
      · have hje : j = k := by omega
        subst hje
        rw [List.any_eq_true] at hguard
        obtain ⟨e, he, hpe⟩ := hguard
        rw [Bool.and_eq_true, decide_eq_true_eq] at hpe
        have : e = SkillFileEntry.mk (jsJoinSlash (parts.take (j + 1))) true := by
          cases e
          simp only [SkillFileEntry.mk.injEq]
          exact ⟨hpe.1, hpe.2⟩
        rw [← this]
        exact he
    · rw [if_neg hguard]
      by_cases hjk : j < k
      · exact List.mem_append.mpr (Or.inl (ih j hjk))
      · have hje : j = k := by omega
        subst hje
        exact List.mem_append.mpr (Or.inr (List.mem_singleton.mpr rfl))

theorem addDirPrefixes_origin (parts : List JStr) (acc : List SkillFileEntry) :
    ∀ k, ∀ e ∈ addDirPrefixes parts acc k,
      e ∈ acc ∨ ∃ j, j < k ∧ e = SkillFileEntry.mk (jsJoinSlash (parts.take (j + 1))) true := by
  intro k
  induction k with
  | zero =>
    intro e he
    exact Or.inl he
  | succ k ih =>
    intro e he
    unfold addDirPrefixes at he
    simp only [] at he
    by_cases hguard : (addDirPrefixes parts acc k).any
        (fun e => decide (e.relativePath = jsJoinSlash (parts.take (k + 1))) && e.isDir) = true
    · rw [if_pos hguard] at he
      rcases ih e he with h | ⟨j, hj, hje⟩
      · exact Or.inl h
      · exact Or.inr ⟨j, by omega, hje⟩
    · rw [if_neg hguard] at he
      rcases List.mem_append.mp he with he | he
      · rcases ih e he with h | ⟨j, hj, hje⟩
        · exact Or.inl h
        · exact Or.inr ⟨j, by omega, hje⟩
      · exact Or.inr ⟨k, by omega, List.mem_singleton.mp he⟩

theorem addDirPrefixes_nodup (parts : List JStr) (acc : List SkillFileEntry)
    (hacc : (acc.map (fun e => e.relativePath)).Nodup) :
    ∀ k, (∀ j < k, SkillFileEntry.mk (jsJoinSlash (parts.take (j + 1))) false ∉ acc) →
      ((addDirPrefixes parts acc k).map (fun e => e.relativePath)).Nodup := by
  intro k
  induction k with
  | zero =>
    intro _
    exact hacc
  | succ k ih =>
    intro hnofile
    have ih' := ih (fun j hj => hnofile j (by omega))
    unfold addDirPrefixes
    simp only []
    by_cases hguard : (addDirPrefixes parts acc k).any
        (fun e => decide (e.relativePath = jsJoinSlash (parts.take (k + 1))) && e.isDir) = true
    · rw [if_pos hguard]
      exact ih'
    · rw [if_neg hguard]
      rw [List.map_append, List.nodup_append]
      refine ⟨ih', by simp, ?_⟩
      intro p hp hpmem
      simp only [List.map_cons, List.map_nil, List.mem_singleton] at hpmem
      subst hpmem
      obtain ⟨e, he, hpath⟩ := List.mem_map.mp hp
      rcases addDirPrefixes_origin parts acc k e he with hea | ⟨j, hj, hje⟩
      · cases hdir : e.isDir
        · refine hnofile k (by omega) ?_
          have : e = SkillFileEntry.mk (jsJoinSlash (parts.take (k + 1))) false := by
            cases e
            simp only [SkillFileEntry.mk.injEq]
            exact ⟨hpath, by simpa using hdir⟩
          rw [← this]
          exact hea
        · refine absurd ?_ hguard
          rw [List.any_eq_true]
          exact ⟨e, he, by rw [Bool.and_eq_true, decide_eq_true_eq]; exact ⟨hpath, hdir⟩⟩
      · refine absurd ?_ hguard
        rw [List.any_eq_true]
        refine ⟨e, he, ?_⟩
        rw [Bool.and_eq_true, decide_eq_true_eq]
        constructor
        · exact hpath
        · rw [hje]

theorem addDirPrefixes_parent_closure (parts : List JStr) (acc : List SkillFileEntry)
    (hparts : ∀ seg ∈ parts, seg ≠ [] ∧ '/' ∉ seg)
    (hacc : ∀ e ∈ acc, parentOf e.relativePath ≠ [] →
      SkillFileEntry.mk (parentOf e.relativePath) true ∈ acc)
    (k : Nat) (hk : k ≤ parts.length) :
    ∀ e ∈ addDirPrefixes parts acc k, parentOf e.relativePath ≠ [] →
      SkillFileEntry.mk (parentOf e.relativePath) true ∈ addDirPrefixes parts acc k := by
  intro e he hpne
  obtain ⟨news, hnews⟩ := addDirPrefixes_extends parts acc k
  rcases addDirPrefixes_origin parts acc k e he with hea | ⟨j, hj, hje⟩
  · have := hacc e hea hpne
    rw [hnews]
    exact List.mem_append.mpr (Or.inl this)
  · subst hje
    simp only [] at hpne ⊢
    cases j with
    | zero =>
      exfalso
      apply hpne
      obtain ⟨p0, rest, hp⟩ : ∃ p0 rest, parts = p0 :: rest := by
        cases hpc : parts with
        | nil =>
          rw [hpc] at hk
          simp only [List.length_nil] at hk
          omega
        | cons p0 rest => exact ⟨p0, rest, rfl⟩
      rw [hp]
      show parentOf (jsJoinSlash ((p0 :: rest).take 1)) = []
      rw [show (p0 :: rest).take 1 = [p0] from rfl]
      unfold jsJoinSlash
      rw [intercalate_single]
      exact parentOf_no_slash (hparts p0 (by rw [hp]; exact List.mem_cons_self p0 rest)).2
    | succ m =>
      have hmlen : m + 1 < parts.length := by omega
      have hstep := joinSlash_take_succ (L := parts) (k := m + 1) (by omega) hmlen
      have hgetmem : parts.getD (m + 1) [] ∈ parts := by
        rw [List.getD_eq_getElem?_getD, List.getElem?_eq_getElem hmlen]
        simp only [Option.getD_some]
        exact List.getElem_mem hmlen
      rw [hstep, parentOf_concat (hparts _ hgetmem).2]
      exact addDirPrefixes_present parts acc k m (by omega)

/-- The result of the ancestor-ensuring loop on a well-formed state is again
well-formed. -/
theorem addDirPrefixes_wf {st : List SkillFileEntry} {folderPath normalized : JStr}
    (hwf : wfEntries st) (hnorm : normalizeRelativePath folderPath = some normalized)
    (hnofile : ∀ j < (jsSegments normalized).length,
      SkillFileEntry.mk (jsJoinSlash ((jsSegments normalized).take (j + 1))) false ∉ st) :
    wfEntries (addDirPrefixes (jsSegments normalized) st (jsSegments normalized).length) := by
  obtain ⟨hLne, hLfacts⟩ := segments_facts hnorm
  refine ⟨?_, ?_, ?_⟩
  · intro e he
    rcases addDirPrefixes_origin _ _ _ e he with hea | ⟨j, hj, hje⟩
    · exact hwf.1 e hea
    · subst hje
      exact (joinSlash_take_valid hLfacts hj).1
  · exact addDirPrefixes_nodup _ _ hwf.2.1 _ hnofile
  · have hparclo : ∀ e ∈ addDirPrefixes (jsSegments normalized) st (jsSegments normalized).length,
        parentOf e.relativePath ≠ [] →
        SkillFileEntry.mk (parentOf e.relativePath) true ∈
          addDirPrefixes (jsSegments normalized) st (jsSegments normalized).length := by
      refine addDirPrefixes_parent_closure _ _ hLfacts ?_ _ le_rfl
      intro e he hpne
      refine ancestor_mem hwf he hpne ?_
      exact isUnder_of_parentOf (hwf.1 e he).1 rfl
    have hvalid : ∀ e ∈ addDirPrefixes (jsSegments normalized) st (jsSegments normalized).length,
        validPath e.relativePath := by
      intro e he
      rcases addDirPrefixes_origin _ _ _ e he with hea | ⟨j, hj, hje⟩
      · exact hwf.1 e hea
      · subst hje
        exact (joinSlash_take_valid hLfacts hj).1
    have hfull := closure_of_parent_closure hvalid hparclo
    intro e he i _ hne hu
    exact hfull e he _ hne hu

/-- The result of a folder-creation attempt, reported alongside the state. -/
inductive CreateFolderResult
  | invalidPath
  | alreadyExists
  | created
deriving DecidableEq

/-- `createFolder` (SkillEditorDialog.tsx 335-362): validate the path, refuse
when an equal directory already exists, otherwise insert every missing
ancestor directory and re-sort the listing. -/
def createFolder (st : EditorState) (folderPath : JStr) : EditorState × CreateFolderResult :=
  match normalizeRelativePath folderPath with
  | none => (st, CreateFolderResult.invalidPath)
  | some normalized =>
    if st.entries.any (fun e => decide (e.relativePath = normalized) && e.isDir) then
      (st, CreateFolderResult.alreadyExists)
    else
      let nextEntries :=
        addDirPrefixes (jsSegments normalized) st.entries (jsSegments normalized).length
      ({ st with entries := sortEntries nextEntries }, CreateFolderResult.created)

/-- C5 (amended): folder creation.  Creating a directory that already exists
in the entry list is rejected with an "already exists" error result and
leaves the state unchanged — a no-op, but an error, not the silent success
the original claim states (see the counterexample).  Creating a nested path
adds every missing ancestor directory exactly once: afterwards every
ancestor prefix is present as a directory entry, the path list has no
duplicates, every pre-existing entry is retained, and repeating the call
changes nothing further (it reports "already exists"). -/
theorem createFolder_spec (st : EditorState) (folderPath normalized : JStr)
    (hwf : wfEntries st.entries)
    (hnorm : normalizeRelativePath folderPath = some normalized) :
    ((∃ e ∈ st.entries, e.relativePath = normalized ∧ e.isDir = true) →
      createFolder st folderPath = (st, CreateFolderResult.alreadyExists)) ∧
    ((∀ e ∈ st.entries, ¬ (e.relativePath = normalized ∧ e.isDir = true)) →
     (∀ j < (jsSegments normalized).length,
        SkillFileEntry.mk (jsJoinSlash ((jsSegments normalized).take (j + 1))) false ∉
          st.entries) →
      (createFolder st folderPath).2 = CreateFolderResult.created ∧
      (∀ j < (jsSegments normalized).length,
        SkillFileEntry.mk (jsJoinSlash ((jsSegments normalized).take (j + 1))) true ∈
          (createFolder st folderPath).1.entries) ∧
      SkillFileEntry.mk normalized true ∈ (createFolder st folderPath).1.entries ∧
      ((createFolder st folderPath).1.entries.map (fun e => e.relativePath)).Nodup ∧
      (∀ e ∈ st.entries, e ∈ (createFolder st folderPath).1.entries) ∧
      createFolder (createFolder st folderPath).1 folderPath =
        ((createFolder st folderPath).1, CreateFolderResult.alreadyExists)) := by
  constructor
  · rintro ⟨e, he, hpath, hdir⟩
    have hany : st.entries.any
        (fun e => decide (e.relativePath = normalized) && e.isDir) = true := by
      rw [List.any_eq_true]
      exact ⟨e, he, by rw [Bool.and_eq_true, decide_eq_true_eq]; exact ⟨hpath, hdir⟩⟩
    simp only [createFolder, hnorm]
    rw [if_pos hany]
  · intro hnone hnofile
    have hany : st.entries.any
        (fun e => decide (e.relativePath = normalized) && e.isDir) = false := by
      rw [List.any_eq_false]
      intro e he
      rw [Bool.and_eq_true, decide_eq_true_eq]
      exact hnone e he
    have hguard : ¬ st.entries.any
        (fun e => decide (e.relativePath = normalized) && e.isDir) = true := by
      rw [hany]
      simp
    have hwfnext := addDirPrefixes_wf hwf hnorm hnofile
    have hperm := sortEntries_perm hwfnext
    obtain ⟨Lne, Lfacts⟩ := segments_facts hnorm
    have hres1 : (createFolder st folderPath).1.entries =
        sortEntries (addDirPrefixes (jsSegments normalized) st.entries
          (jsSegments normalized).length) := by
      simp only [createFolder, hnorm]
      rw [if_neg hguard]
    have hres2 : (createFolder st folderPath).2 = CreateFolderResult.created := by
      simp only [createFolder, hnorm]
      rw [if_neg hguard]
    have hjoin : jsJoinSlash (jsSegments normalized) = normalized := by
      unfold jsJoinSlash jsSegments
      exact List.intercalate_splitOn normalized '/'
    have hmemnorm : SkillFileEntry.mk normalized true ∈ (createFolder st folderPath).1.entries := by
      rw [hres1]
      refine hperm.mem_iff.mpr ?_
      have hlen : 0 < (jsSegments normalized).length := List.length_pos.mpr Lne
      have hpres := addDirPrefixes_present (jsSegments normalized) st.entries
        (jsSegments normalized).length ((jsSegments normalized).length - 1) (by omega)
      rw [show (jsSegments normalized).length - 1 + 1 = (jsSegments normalized).length from
        by omega] at hpres
      rw [List.take_length, hjoin] at hpres
      exact hpres
    refine ⟨hres2, ?_, hmemnorm, ?_, ?_, ?_⟩
    · intro j hj
      rw [hres1]
      exact hperm.mem_iff.mpr (addDirPrefixes_present _ _ _ j hj)
    · rw [hres1]
      have hnd := addDirPrefixes_nodup _ _ hwf.2.1 _ hnofile
      exact ((hperm.map (fun e => e.relativePath)).nodup_iff).mpr hnd
    · intro e he
      rw [hres1]
      obtain ⟨news, hnews⟩ := addDirPrefixes_extends (jsSegments normalized) st.entries _
      refine hperm.mem_iff.mpr ?_
      rw [hnews]
      exact List.mem_append.mpr (Or.inl he)
    · obtain ⟨st', hst'⟩ : ∃ st', (createFolder st folderPath).1 = st' := ⟨_, rfl⟩
      rw [hst'] at hmemnorm ⊢
      have hany2 : st'.entries.any
          (fun e => decide (e.relativePath = normalized) && e.isDir) = true := by
        rw [List.any_eq_true]
        exact ⟨SkillFileEntry.mk normalized true, hmemnorm, by simp⟩
      simp only [createFolder, hnorm]
      rw [if_pos hany2]

/-- Counterexample to C5 as stated: creating the already-existing directory
`a` yields the error result `alreadyExists` — a no-op, but an error rather
than a success. -/
theorem createFolder_existing_is_error :
    createFolder sampleState ("a".toList) = (sampleState, CreateFolderResult.alreadyExists) ∧
    (createFolder sampleState ("a".toList)).2 ≠ CreateFolderResult.created := by decide

/-- Witness for C5 at concrete inputs. -/
theorem createFolder_spec_witness :
    wfEntries sampleState.entries ∧
    createFolder sampleState ("a".toList) = (sampleState, CreateFolderResult.alreadyExists) ∧
    (createFolder sampleState ("b/c".toList)).2 = CreateFolderResult.created ∧
    SkillFileEntry.mk ("b/c".toList) true ∈ (createFolder sampleState ("b/c".toList)).1.entries :=
  ⟨by decide,
   (createFolder_spec sampleState ("a".toList) ("a".toList) (by decide) (by decide)).1
     (by decide),
   ((createFolder_spec sampleState ("b/c".toList) ("b/c".toList) (by decide) (by decide)).2
     (by decide) (by decide)).1,
   ((createFolder_spec sampleState ("b/c".toList) ("b/c".toList) (by decide) (by decide)).2
     (by decide) (by decide)).2.2.1⟩

/-! ## Claim C3: the rename cascade -/

theorem splitOn_sep_append (c : Char) (x rest : JStr) :
    (x ++ c :: rest).splitOn c = x.splitOn c ++ rest.splitOn c := by
  induction x with
  | nil =>
    rw [List.nil_append, splitOn_cons, if_pos rfl, List.splitOn_nil]
    rfl
  | cons a x ih =>
    by_cases hac : a = c
    · rw [List.cons_append, splitOn_cons, if_pos hac, ih, splitOn_cons, if_pos hac]
      rfl
    · rw [List.cons_append, splitOn_cons, if_neg hac, ih, splitOn_cons, if_neg hac]
      obtain ⟨h0, t0, hsplit⟩ : ∃ h0 t0, x.splitOn c = h0 :: t0 := by
        cases hs : x.splitOn c with
        | nil => exact absurd hs (List.splitOnP_ne_nil _ x)
        | cons h0 t0 => exact ⟨h0, t0, rfl⟩
      rw [hsplit, List.cons_append, List.modifyHead_cons, List.modifyHead_cons, List.cons_append]

theorem parentOf_append_slash (x rest : JStr) :
    parentOf (x ++ '/' :: rest) =
      if '/' ∈ rest then x ++ '/' :: parentOf rest else x := by
  by_cases hs : '/' ∈ rest
  · rw [if_pos hs]
    obtain ⟨hdec, hbs⟩ := slash_decomposition hs
    have : x ++ '/' :: rest = (x ++ '/' :: parentOf rest) ++ '/' :: basenameOf rest := by
      conv_lhs => rw [hdec]
      simp
    rw [this, parentOf_concat hbs]
  · rw [if_neg hs]
    exact parentOf_concat hs

/-- The `remap` closure inside `renameEntry` (lines 429-435). -/
def renameRemap (entry : SkillFileEntry) (normalized : JStr) (p : JStr) : JStr :=
  if p = entry.relativePath then normalized
  else if entry.isDir = true ∧ (entry.relativePath ++ ['/']).isPrefixOf p = true then
    normalized ++ p.drop entry.relativePath.length
  else p

/-- The rename target before validation (lines 409-410): keep the prompt
name next to the old parent. -/
def renameTarget (entry : SkillFileEntry) (nextName : JStr) : JStr :=
  let parent := jsJoinSlash (jsSegments entry.relativePath).dropLast
  if parent ≠ [] then parent ++ '/' :: nextName else nextName

/-- `renameEntry` (SkillEditorDialog.tsx 404-461), with the prompt reply as a
parameter and the backend call assumed successful.  Every path-keyed piece of
state is rebuilt through the same `renameRemap`. -/
def renameEntry (st : EditorState) (entry : SkillFileEntry) (nextNameRaw : JStr) : EditorState :=
  let oldName := ((jsSegments entry.relativePath).getLast?).getD entry.relativePath
  let nextName := jsTrim nextNameRaw
  if nextName = [] ∨ nextName = oldName then st
  else
    match normalizeRelativePath (renameTarget entry nextName) with
    | none => st
    | some normalized =>
      if st.entries.any (fun e => e.relativePath = normalized) then st
      else
        { st with
          entries := sortEntries (st.entries.map (fun e =>
            { e with relativePath := renameRemap entry normalized e.relativePath })),
          contentByFile := st.contentByFile.map (fun kv =>
            (renameRemap entry normalized kv.1, kv.2)),
          savedByFile := st.savedByFile.map (fun kv =>
            (renameRemap entry normalized kv.1, kv.2)),
          dirtyFiles := st.dirtyFiles.map (renameRemap entry normalized),
          collapsedDirs := st.collapsedDirs.map (renameRemap entry normalized),
          selectedFile := renameRemap entry normalized st.selectedFile }

theorem renameRemap_self (entry : SkillFileEntry) (normalized : JStr) :
    renameRemap entry normalized entry.relativePath = normalized := by
  unfold renameRemap
  rw [if_pos rfl]

theorem renameRemap_outside {entry : SkillFileEntry} {normalized p : JStr}
    (h1 : p ≠ entry.relativePath) (h2 : ¬ (entry.relativePath ++ ['/']) <+: p) :
    renameRemap entry normalized p = p := by
  unfold renameRemap
  rw [if_neg h1, if_neg ?_]
  rintro ⟨_, hpre⟩
  exact h2 (List.isPrefixOf_iff_prefix.mp hpre)

theorem renameRemap_sub {entry : SkillFileEntry} {normalized rest : JStr}
    (hdir : entry.isDir = true) :
    renameRemap entry normalized (entry.relativePath ++ '/' :: rest) =
      normalized ++ '/' :: rest := by
  have hne : entry.relativePath ++ '/' :: rest ≠ entry.relativePath := by
    intro hc
    have := congrArg List.length hc
    simp at this
  have hpre : (entry.relativePath ++ ['/']).isPrefixOf (entry.relativePath ++ '/' :: rest) = true := by
    rw [List.isPrefixOf_iff_prefix]
    exact ⟨rest, by simp⟩
  unfold renameRemap
  rw [if_neg hne, if_pos ⟨hdir, hpre⟩, List.drop_left]

theorem renameRemap_keep {entry : SkillFileEntry} {normalized p : JStr}
    (h1 : p ≠ entry.relativePath)
    (h2 : ¬ (entry.isDir = true ∧ (entry.relativePath ++ ['/']) <+: p)) :
    renameRemap entry normalized p = p := by
  unfold renameRemap
  rw [if_neg h1, if_neg ?_]
  rintro ⟨hd, hpre⟩
  exact h2 ⟨hd, List.isPrefixOf_iff_prefix.mp hpre⟩

/-- Exhaustive description of `renameRemap`. -/
theorem renameRemap_cases (entry : SkillFileEntry) (normalized p : JStr) :
    (p = entry.relativePath ∧ renameRemap entry normalized p = normalized) ∨
    (p ≠ entry.relativePath ∧ entry.isDir = true ∧
      (∃ rest, p = entry.relativePath ++ '/' :: rest ∧
        renameRemap entry normalized p = normalized ++ '/' :: rest)) ∨
    (p ≠ entry.relativePath ∧
      ¬ (entry.isDir = true ∧ (entry.relativePath ++ ['/']) <+: p) ∧
      renameRemap entry normalized p = p) := by
  by_cases h1 : p = entry.relativePath
  · left
    exact ⟨h1, by rw [h1, renameRemap_self]⟩
  by_cases h2 : entry.isDir = true ∧ (entry.relativePath ++ ['/']) <+: p
  · right; left
    obtain ⟨hd, t, ht⟩ := h2
    refine ⟨h1, hd, t, ?_, ?_⟩
    · rw [← ht]; simp
    · have hp : p = entry.relativePath ++ '/' :: t := by rw [← ht]; simp
      rw [hp, renameRemap_sub hd]
  · right; right
    exact ⟨h1, h2, renameRemap_keep h1 h2⟩

/-- When no existing entry carries the fresh path, no existing entry lies
under it either. -/
theorem no_path_under_normalized {E : List SkillFileEntry} {normalized : JStr}
    (hwf : wfEntries E) (hnne : normalized ≠ [])
    (hnew : ∀ e ∈ E, e.relativePath ≠ normalized) :
    ∀ e ∈ E, ∀ rest, e.relativePath ≠ normalized ++ '/' :: rest := by
  intro e he rest hc
  have hu : isUnder normalized e.relativePath := by
    unfold isUnder
    rw [if_neg hnne]
    exact ⟨rest, by rw [hc]; simp⟩
  exact hnew _ (ancestor_mem hwf he hnne hu) rfl

/-- On the paths of a well-formed entry list with the new name fresh, the
rename remap is injective. -/
theorem renameRemap_inj {E : List SkillFileEntry} {entry : SkillFileEntry} {normalized : JStr}
    (hwf : wfEntries E) (hnne : normalized ≠ [])
    (hnew : ∀ e ∈ E, e.relativePath ≠ normalized)
    {p₁ p₂ : JStr}
    (h1 : p₁ ∈ E.map (fun e => e.relativePath)) (h2 : p₂ ∈ E.map (fun e => e.relativePath))
    (heq : renameRemap entry normalized p₁ = renameRemap entry normalized p₂) : p₁ = p₂ := by
  obtain ⟨e₁, he₁, hp₁⟩ := List.mem_map.mp h1
  obtain ⟨e₂, he₂, hp₂⟩ := List.mem_map.mp h2
  have hfresh₁ : p₁ ≠ normalized := by rw [← hp₁]; exact hnew e₁ he₁
  have hfresh₂ : p₂ ≠ normalized := by rw [← hp₂]; exact hnew e₂ he₂
  have hunder₁ : ∀ rest, p₁ ≠ normalized ++ '/' :: rest := by
    rw [← hp₁]; exact no_path_under_normalized hwf hnne hnew e₁ he₁
  have hunder₂ : ∀ rest, p₂ ≠ normalized ++ '/' :: rest := by
    rw [← hp₂]; exact no_path_under_normalized hwf hnne hnew e₂ he₂
  rcases renameRemap_cases entry normalized p₁ with ⟨ha₁, hr₁⟩ | ⟨_, _, r₁, hb₁, hr₁⟩ |
      ⟨_, _, hr₁⟩ <;>
    rcases renameRemap_cases entry normalized p₂ with ⟨ha₂, hr₂⟩ | ⟨_, _, r₂, hb₂, hr₂⟩ |
      ⟨_, _, hr₂⟩
  · rw [ha₁, ha₂]
  · rw [hr₁, hr₂] at heq
    have := congrArg List.length heq
    simp at this
  · rw [hr₁, hr₂] at heq
    exact absurd heq.symm hfresh₂
  · rw [hr₁, hr₂] at heq
    have := congrArg List.length heq
    simp at this
  · rw [hr₁, hr₂] at heq
    have : r₁ = r₂ := List.cons_injective (List.append_cancel_left heq)
    rw [hb₁, hb₂, this]
  · rw [hr₁, hr₂] at heq
    exact absurd heq.symm (hunder₂ r₁)
  · rw [hr₁, hr₂] at heq
    exact absurd heq hfresh₁
  · rw [hr₁, hr₂] at heq
    exact absurd heq (hunder₁ r₂)
  · rw [hr₁, hr₂] at heq
    exact heq

theorem jsSegments_sep_append (x rest : JStr) :
    jsSegments (x ++ '/' :: rest) = jsSegments x ++ jsSegments rest := by
  unfold jsSegments
  exact splitOn_sep_append '/' x rest

theorem renameRemap_valid {entry : SkillFileEntry} {normalized p : JStr}
    (hvp : validPath p) (hvn : validPath normalized) :
    validPath (renameRemap entry normalized p) := by
  rcases renameRemap_cases entry normalized p with ⟨_, hr⟩ | ⟨_, _, rest, hb, hr⟩ | ⟨_, _, hr⟩
  · rw [hr]; exact hvn
  · rw [hr]
    refine ⟨by simp, ?_⟩
    intro seg hseg
    rw [jsSegments_sep_append] at hseg
    rcases List.mem_append.mp hseg with hl | hrr
    · exact hvn.2 seg hl
    · refine hvp.2 seg ?_
      rw [hb, jsSegments_sep_append]
      exact List.mem_append_right _ hrr
  · rw [hr]; exact hvp

theorem renameRemap_fixes_ancestor {entry : SkillFileEntry} {normalized q : JStr}
    (hlt : q.length < entry.relativePath.length) :
    renameRemap entry normalized q = q := by
  refine renameRemap_keep ?_ ?_
  · intro hc
    rw [hc] at hlt
    exact lt_irrefl _ hlt
  · rintro ⟨_, hpre⟩
    have := hpre.length_le
    simp at this
    omega

theorem mem_map_remap_of_fixed {E : List SkillFileEntry} {entry : SkillFileEntry}
    {normalized : JStr} {d : SkillFileEntry} (hd : d ∈ E)
    (hfix : renameRemap entry normalized d.relativePath = d.relativePath) :
    d ∈ E.map (fun e =>
      { e with relativePath := renameRemap entry normalized e.relativePath }) := by
  refine List.mem_map.mpr ⟨d, hd, ?_⟩
  rw [hfix]

/-- The remapped entry list of a rename stays well-formed when the new name is
fresh and keeps the parent directory of the renamed entry. -/
theorem renameRemap_wf {E : List SkillFileEntry} {entry : SkillFileEntry} {normalized : JStr}
    (hwf : wfEntries E) (hmem : entry ∈ E) (hvn : validPath normalized)
    (hnew : ∀ e ∈ E, e.relativePath ≠ normalized)
    (hparent : parentOf normalized = parentOf entry.relativePath) :
    wfEntries (E.map (fun e =>
      { e with relativePath := renameRemap entry normalized e.relativePath })) := by
  have hnne : normalized ≠ [] := hvn.1
  have hDne : entry.relativePath ≠ [] := (hwf.1 entry hmem).1
  have hval : ∀ e' ∈ E.map (fun e =>
      { e with relativePath := renameRemap entry normalized e.relativePath }),
      validPath e'.relativePath := by
    intro e' he'
    obtain ⟨e, he, rfl⟩ := List.mem_map.mp he'
    exact renameRemap_valid (hwf.1 e he) hvn
  have hnd : ((E.map (fun e =>
      { e with relativePath := renameRemap entry normalized e.relativePath })).map
        (fun e => e.relativePath)).Nodup := by
    rw [List.map_map]
    refine List.Nodup.map_on ?_ hwf.2.1.of_map
    intro x hx y hy heq
    have heq' : renameRemap entry normalized x.relativePath =
        renameRemap entry normalized y.relativePath := heq
    have hp := renameRemap_inj hwf hnne hnew
      (List.mem_map_of_mem (fun e => e.relativePath) hx)
      (List.mem_map_of_mem (fun e => e.relativePath) hy) heq'
    exact List.inj_on_of_nodup_map hwf.2.1 hx hy hp
  have hpar : ∀ e' ∈ E.map (fun e =>
      { e with relativePath := renameRemap entry normalized e.relativePath }),
      parentOf e'.relativePath ≠ [] →
      SkillFileEntry.mk (parentOf e'.relativePath) true ∈ E.map (fun e =>
        { e with relativePath := renameRemap entry normalized e.relativePath }) := by
    intro e' he' hpne
    obtain ⟨e, he, rfl⟩ := List.mem_map.mp he'
    dsimp only at hpne ⊢
    rcases renameRemap_cases entry normalized e.relativePath with ⟨ha, hr⟩ |
        ⟨_, hdir, rest, hb, hr⟩ | ⟨hne1, hne2, hr⟩
    · rw [hr] at hpne ⊢
      rw [hparent] at hpne ⊢
      have hpd : SkillFileEntry.mk (parentOf entry.relativePath) true ∈ E :=
        ancestor_mem hwf hmem hpne (isUnder_of_parentOf hDne rfl)
      exact mem_map_remap_of_fixed hpd
        (renameRemap_fixes_ancestor (parentOf_length_lt hDne rfl))
    · rw [hr] at hpne ⊢
      by_cases hs : '/' ∈ rest
      · rw [parentOf_append_slash, if_pos hs] at hpne ⊢
        have hpdE : SkillFileEntry.mk (entry.relativePath ++ '/' :: parentOf rest) true ∈ E := by
          refine ancestor_mem hwf he (by simp) ?_
          refine isUnder_of_parentOf ?_ ?_
          · rw [hb]; simp
          · rw [hb, parentOf_append_slash, if_pos hs]
        refine List.mem_map.mpr ⟨_, hpdE, ?_⟩
        dsimp only
        rw [renameRemap_sub hdir]
      · rw [parentOf_append_slash, if_neg hs] at hpne ⊢
        refine List.mem_map.mpr ⟨entry, hmem, ?_⟩
        dsimp only
        rw [renameRemap_self, hdir]
    · rw [hr] at hpne ⊢
      have hpdE : SkillFileEntry.mk (parentOf e.relativePath) true ∈ E :=
        ancestor_mem hwf he hpne (isUnder_of_parentOf (hwf.1 e he).1 rfl)
      have hppre : parentOf e.relativePath <+: e.relativePath := by
        by_cases hsl : '/' ∈ e.relativePath
        · obtain ⟨hdec, _⟩ := slash_decomposition hsl
          exact ⟨'/' :: basenameOf e.relativePath, hdec.symm⟩
        · exact absurd (parentOf_no_slash hsl) hpne
      refine mem_map_remap_of_fixed hpdE (renameRemap_keep ?_ ?_)
      · intro hc
        have hdirE : entry.isDir = true := by
          have : entry = SkillFileEntry.mk (parentOf e.relativePath) true := by
            refine List.inj_on_of_nodup_map hwf.2.1 hmem hpdE ?_
            rw [hc]
          rw [this]
        have hu : isUnder entry.relativePath e.relativePath := by
          rw [← hc]
          exact isUnder_of_parentOf (hwf.1 e he).1 rfl
        obtain ⟨r, hrr⟩ := isUnder_decomp hDne hu
        refine hne2 ⟨hdirE, r, ?_⟩
        rw [hrr]
        simp
      · rintro ⟨hdirE, hpre⟩
        exact hne2 ⟨hdirE, hpre.trans hppre⟩
  refine ⟨hval, hnd, ?_⟩
  intro e he i _ hne hu
  exact closure_of_parent_closure hval hpar e he _ hne hu

/-- `renameEntry` under its success guards, as one record update. -/
theorem renameEntry_eq {st : EditorState} {entry : SkillFileEntry}
    {nextNameRaw normalized : JStr}
    (hguard : ¬ (jsTrim nextNameRaw = [] ∨
      jsTrim nextNameRaw = ((jsSegments entry.relativePath).getLast?).getD entry.relativePath))
    (hnorm : normalizeRelativePath (renameTarget entry (jsTrim nextNameRaw)) = some normalized)
    (hnew : ∀ e ∈ st.entries, e.relativePath ≠ normalized) :
    renameEntry st entry nextNameRaw =
      { st with
        entries := sortEntries (st.entries.map (fun e =>
          { e with relativePath := renameRemap entry normalized e.relativePath })),
        contentByFile := st.contentByFile.map (fun kv =>
          (renameRemap entry normalized kv.1, kv.2)),
        savedByFile := st.savedByFile.map (fun kv =>
          (renameRemap entry normalized kv.1, kv.2)),
        dirtyFiles := st.dirtyFiles.map (renameRemap entry normalized),
        collapsedDirs := st.collapsedDirs.map (renameRemap entry normalized),
        selectedFile := renameRemap entry normalized st.selectedFile } := by
  have hany : (st.entries.any (fun e => e.relativePath = normalized)) = false := by
    rw [List.any_eq_false]
    intro e he
    simp only [decide_eq_true_eq]
    exact hnew e he
  simp only [renameEntry]
  rw [if_neg hguard, hnorm]
  dsimp only
  rw [hany]
  rfl

/-- C3 (amended): for a successful rename whose validated new path stays inside
the old parent directory, the resulting entry list is exactly the old one with
the prefix substitution `renameRemap` applied (up to the re-sort), the remap
sends the renamed path to the new path and every `D/`-prefixed path to the
`D2/`-prefixed one while fixing every path outside the renamed prefix, and the
identical remap is applied uniformly to the content map, the saved-snapshot
map, the dirty-file set, the collapsed-directory set, and the selected file.
The amendment restricts the claim to renames whose new name keeps the parent:
a multi-segment replacement name silently drops the renamed subtree instead of
remapping it (see the counterexample). -/
theorem renameEntry_prefix_remap (st : EditorState) (entry : SkillFileEntry)
    (nextNameRaw normalized : JStr)
    (hwf : wfEntries st.entries) (hmem : entry ∈ st.entries)
    (hguard : ¬ (jsTrim nextNameRaw = [] ∨
      jsTrim nextNameRaw = ((jsSegments entry.relativePath).getLast?).getD entry.relativePath))
    (hnorm : normalizeRelativePath (renameTarget entry (jsTrim nextNameRaw)) = some normalized)
    (hnew : ∀ e ∈ st.entries, e.relativePath ≠ normalized)
    (hparent : parentOf normalized = parentOf entry.relativePath) :
    ((renameEntry st entry nextNameRaw).entries).Perm
        (st.entries.map (fun e =>
          { e with relativePath := renameRemap entry normalized e.relativePath })) ∧
    renameRemap entry normalized entry.relativePath = normalized ∧
    (entry.isDir = true → ∀ rest,
      renameRemap entry normalized (entry.relativePath ++ '/' :: rest) =
        normalized ++ '/' :: rest) ∧
    (∀ p, p ≠ entry.relativePath →
      ¬ (entry.isDir = true ∧ (entry.relativePath ++ ['/']) <+: p) →
      renameRemap entry normalized p = p) ∧
    (renameEntry st entry nextNameRaw).contentByFile =
      st.contentByFile.map (fun kv => (renameRemap entry normalized kv.1, kv.2)) ∧
    (renameEntry st entry nextNameRaw).savedByFile =
      st.savedByFile.map (fun kv => (renameRemap entry normalized kv.1, kv.2)) ∧
    (renameEntry st entry nextNameRaw).dirtyFiles =
      st.dirtyFiles.map (renameRemap entry normalized) ∧
    (renameEntry st entry nextNameRaw).collapsedDirs =
      st.collapsedDirs.map (renameRemap entry normalized) ∧
    (renameEntry st entry nextNameRaw).selectedFile =
      renameRemap entry normalized st.selectedFile := by
  have hvn : validPath normalized := by
    obtain ⟨h1, _, _, h4⟩ := normalizeRelativePath_some_spec hnorm
    exact ⟨h1, fun seg hseg => (h4 seg hseg).1⟩
  rw [renameEntry_eq hguard hnorm hnew]
  refine ⟨?_, renameRemap_self entry normalized, fun hdir rest => renameRemap_sub hdir,
    fun p h1 h2 => renameRemap_keep h1 h2, rfl, rfl, rfl, rfl, rfl⟩
  exact sortEntries_perm (renameRemap_wf hwf hmem hvn hnew hparent)

/-- The editor state used for the C3 rename scenarios: a directory `a`
holding one file, which is also the open, clean, selected file. -/
def renameSample : EditorState :=
  { modeEdit := true
    hasSkillPath := true
    entries := [SkillFileEntry.mk ("a".toList) true, SkillFileEntry.mk ("a/f.md".toList) false]
    selectedFile := "a/f.md".toList
    contentByFile := [("a/f.md".toList, "text".toList)]
    savedByFile := [("a/f.md".toList, "text".toList)]
    dirtyFiles := []
    collapsedDirs := []
    pendingEntry := none
    unsavedSwitchOpen := false }

/-- C3 counterexample: renaming the directory `a` to the multi-segment name
`b/c` does not leave the pre-existing entry `a/f.md` observable with the
prefix replaced — the remapped paths `b/c` and `b/c/f.md` lack the ancestor
entry `b`, so the re-sort drops the whole subtree and the entry list comes
back empty. -/
theorem renameEntry_subtree_dropped :
    (renameEntry renameSample (SkillFileEntry.mk ("a".toList) true) ("b/c".toList)).entries
        = [] ∧
    SkillFileEntry.mk ("b/c/f.md".toList) false ∉
      (renameEntry renameSample (SkillFileEntry.mk ("a".toList) true) ("b/c".toList)).entries := by
  decide

theorem renameEntry_prefix_remap_witness :
    (wfEntries renameSample.entries ∧
      SkillFileEntry.mk ("a".toList) true ∈ renameSample.entries ∧
      ¬ (jsTrim ("b".toList) = [] ∨ jsTrim ("b".toList) =
        ((jsSegments ("a".toList)).getLast?).getD ("a".toList)) ∧
      normalizeRelativePath
        (renameTarget (SkillFileEntry.mk ("a".toList) true) (jsTrim ("b".toList))) =
        some ("b".toList) ∧
      (∀ e ∈ renameSample.entries, e.relativePath ≠ "b".toList) ∧
      parentOf ("b".toList) = parentOf ("a".toList)) ∧
    (((renameEntry renameSample (SkillFileEntry.mk ("a".toList) true) ("b".toList)).entries).Perm
        (renameSample.entries.map (fun e =>
          { e with relativePath :=
              renameRemap (SkillFileEntry.mk ("a".toList) true) ("b".toList) e.relativePath })) ∧
      renameRemap (SkillFileEntry.mk ("a".toList) true) ("b".toList) ("a".toList) = "b".toList ∧
      ((SkillFileEntry.mk ("a".toList) true).isDir = true → ∀ rest,
        renameRemap (SkillFileEntry.mk ("a".toList) true) ("b".toList)
          ("a".toList ++ '/' :: rest) = "b".toList ++ '/' :: rest) ∧
      (∀ p, p ≠ "a".toList →
        ¬ ((SkillFileEntry.mk ("a".toList) true).isDir = true ∧
          ("a".toList ++ ['/']) <+: p) →
        renameRemap (SkillFileEntry.mk ("a".toList) true) ("b".toList) p = p) ∧
      (renameEntry renameSample (SkillFileEntry.mk ("a".toList) true) ("b".toList)).contentByFile =
        renameSample.contentByFile.map (fun kv =>
          (renameRemap (SkillFileEntry.mk ("a".toList) true) ("b".toList) kv.1, kv.2)) ∧
      (renameEntry renameSample (SkillFileEntry.mk ("a".toList) true) ("b".toList)).savedByFile =
        renameSample.savedByFile.map (fun kv =>
          (renameRemap (SkillFileEntry.mk ("a".toList) true) ("b".toList) kv.1, kv.2)) ∧
      (renameEntry renameSample (SkillFileEntry.mk ("a".toList) true) ("b".toList)).dirtyFiles =
        renameSample.dirtyFiles.map
          (renameRemap (SkillFileEntry.mk ("a".toList) true) ("b".toList)) ∧
      (renameEntry renameSample (SkillFileEntry.mk ("a".toList) true) ("b".toList)).collapsedDirs =
        renameSample.collapsedDirs.map
          (renameRemap (SkillFileEntry.mk ("a".toList) true) ("b".toList)) ∧
      (renameEntry renameSample (SkillFileEntry.mk ("a".toList) true) ("b".toList)).selectedFile =
        renameRemap (SkillFileEntry.mk ("a".toList) true) ("b".toList)
          renameSample.selectedFile) :=
  ⟨⟨by decide, by decide, by decide, by decide, by decide, by decide⟩,
    renameEntry_prefix_remap renameSample (SkillFileEntry.mk ("a".toList) true)
      ("b".toList) ("b".toList) (by decide) (by decide) (by decide) (by decide)
      (by decide) (by decide)⟩

/-! ## Claim C6: the GitHub import allow-list -/

/-- The outcome of a GitHub-import submission: either a validation error
toast, or exactly one invocation of the backend install command. -/
inductive SubmitAction
  | validationError
  | installFromGithub (repoUrl : JStr) (skillPath : Option JStr) (targetToolId : JStr)
deriving DecidableEq

/-- `onSubmit` (MarketplaceView.tsx 130-154): require a repo URL and a target
tool, then require the `https://github.com/` allow-list prefix, and only then
invoke the backend install command. -/
def onSubmit (repoUrl skillPath targetToolId : JStr) : SubmitAction :=
  if repoUrl = [] ∨ targetToolId = [] then SubmitAction.validationError
  else if ¬ ("https://github.com/".toList.isPrefixOf repoUrl = true) then
    SubmitAction.validationError
  else SubmitAction.installFromGithub repoUrl
    (if skillPath = [] then none else some skillPath) targetToolId

/-- C6: for every import request whose remote locator does not start with the
`https://github.com/` allow-list prefix, the submission reports a validation
error and never invokes the backend install command; the install action is
only ever produced after the locator validation passes. -/
theorem onSubmit_rejects_nonallowlisted (repoUrl skillPath targetToolId : JStr)
    (h : ¬ ("https://github.com/".toList <+: repoUrl)) :
    onSubmit repoUrl skillPath targetToolId = SubmitAction.validationError := by
  unfold onSubmit
  by_cases h1 : repoUrl = [] ∨ targetToolId = []
  · rw [if_pos h1]
  · rw [if_neg h1, if_pos ?_]
    intro hc
    exact h (List.isPrefixOf_iff_prefix.mp hc)

theorem onSubmit_rejects_nonallowlisted_witness :
    (¬ ("https://github.com/".toList <+: "http://evil.example/repo".toList)) ∧
    onSubmit ("http://evil.example/repo".toList) [] ("tool-1".toList) =
      SubmitAction.validationError :=
  ⟨by decide, onSubmit_rejects_nonallowlisted ("http://evil.example/repo".toList) []
    ("tool-1".toList) (by decide)⟩

/-! ## Claim C1: skill grouping -/

/-- The fields of `SkillInfo` (types/models) that `groupedSkills` reads. -/
structure SkillInfo where
  name : JStr
  description : JStr
  source : JStr
  path : JStr
  enabledFor : List JStr
deriving DecidableEq, Inhabited

/-- The grouping key `skill.name.trim().toLowerCase()` (SkillsView.tsx 40). -/
def skillKey (s : SkillInfo) : JStr :=
  jsToLower (jsTrim s.name)

/-- The keyed accumulation loop of `groupedSkills` (SkillsView.tsx 38-47): a
JS `Map` in insertion order, pushing onto the existing bucket when the key was
seen before. -/
def groupsOf (skills : List SkillInfo) : List (JStr × List SkillInfo) :=
  skills.foldl (fun acc skill =>
    if acc.any (fun kv => kv.1 = skillKey skill) then
      acc.map (fun kv =>
        if kv.1 = skillKey skill then (kv.1, kv.2 ++ [skill]) else kv)
    else acc ++ [(skillKey skill, [skill])]) []

/-- The variant comparator `a.source.localeCompare(b.source) ||
a.path.localeCompare(b.path)` (SkillsView.tsx 50-52), with `localeCompare`
modelled as lexicographic character comparison. -/
def skillLe (a b : SkillInfo) : Prop :=
  a.source < b.source ∨ (a.source = b.source ∧ a.path ≤ b.path)

instance : DecidableRel skillLe := fun a b => by
  unfold skillLe
  infer_instance

instance : IsTotal SkillInfo skillLe := by
  constructor
  intro a b
  unfold skillLe
  rcases lt_trichotomy a.source b.source with h | h | h
  · exact Or.inl (Or.inl h)
  · rcases le_total a.path b.path with hp | hp
    · exact Or.inl (Or.inr ⟨h, hp⟩)
    · exact Or.inr (Or.inr ⟨h.symm, hp⟩)
  · exact Or.inr (Or.inl h)

instance : IsTrans SkillInfo skillLe := by
  constructor
  intro a b c hab hbc
  unfold skillLe at *
  rcases hab with h1 | ⟨h1, h1p⟩ <;> rcases hbc with h2 | ⟨h2, h2p⟩
  · exact Or.inl (h1.trans h2)
  · exact Or.inl (h2 ▸ h1)
  · exact Or.inl (h1 ▸ h2)
  · exact Or.inr ⟨h1.trans h2, h1p.trans h2p⟩

/-- One rendered group (SkillsView.tsx 49-60). -/
structure SkillGroup where
  primary : SkillInfo
  enabledFor : List JStr
  hasDescriptionDiff : Bool
  variantCount : Nat
deriving DecidableEq

/-- Build a group from its variants (SkillsView.tsx 49-60): stable sort by
(source, path), first element as `primary`, distinct trimmed descriptions for
`hasDescriptionDiff`, deduplicated sorted `enabledFor`. -/
def mkGroup (variants : List SkillInfo) : SkillGroup :=
  { primary := (List.insertionSort skillLe variants).headI
    enabledFor := List.insertionSort (fun a b : JStr => a ≤ b)
      ((List.insertionSort skillLe variants).flatMap (fun s => s.enabledFor)).dedup
    hasDescriptionDiff :=
      decide ((((List.insertionSort skillLe variants).map
        (fun s => jsTrim s.description)).dedup).length > 1)
    variantCount := (List.insertionSort skillLe variants).length }

/-- `groupedSkills` (SkillsView.tsx 37-62). -/
def groupedSkills (skills : List SkillInfo) : List SkillGroup :=
  (groupsOf skills).map (fun kv => mkGroup kv.2)

/-- Invariant of the keyed accumulation loop: distinct keys, keys of the
processed part, and buckets holding exactly the matching records in order. -/
theorem groupsOf_loop_spec (pending : List SkillInfo) :
    ∀ (acc : List (JStr × List SkillInfo)) (processed : List SkillInfo),
    ((acc.map Prod.fst).Nodup) →
    (∀ k, k ∈ acc.map Prod.fst ↔ k ∈ processed.map skillKey) →
    (∀ kv ∈ acc, kv.2 = processed.filter (fun s => skillKey s = kv.1)) →
    (((pending.foldl (fun acc skill =>
        if acc.any (fun kv => kv.1 = skillKey skill) then
          acc.map (fun kv =>
            if kv.1 = skillKey skill then (kv.1, kv.2 ++ [skill]) else kv)
        else acc ++ [(skillKey skill, [skill])]) acc).map Prod.fst).Nodup ∧
     (∀ k, k ∈ (pending.foldl (fun acc skill =>
        if acc.any (fun kv => kv.1 = skillKey skill) then
          acc.map (fun kv =>
            if kv.1 = skillKey skill then (kv.1, kv.2 ++ [skill]) else kv)
        else acc ++ [(skillKey skill, [skill])]) acc).map Prod.fst ↔
          k ∈ (processed ++ pending).map skillKey) ∧
     (∀ kv ∈ pending.foldl (fun acc skill =>
        if acc.any (fun kv => kv.1 = skillKey skill) then
          acc.map (fun kv =>
            if kv.1 = skillKey skill then (kv.1, kv.2 ++ [skill]) else kv)
        else acc ++ [(skillKey skill, [skill])]) acc,
        kv.2 = (processed ++ pending).filter (fun s => skillKey s = kv.1))) := by
  induction pending with
  | nil =>
    intro acc processed h1 h2 h3
    rw [List.foldl_nil, List.append_nil]
    exact ⟨h1, h2, h3⟩
  | cons skill rest ih =>
    intro acc processed h1 h2 h3
    rw [List.foldl_cons]
    have hkey : (acc.any (fun kv => kv.1 = skillKey skill)) = true ↔
        skillKey skill ∈ acc.map Prod.fst := by
      rw [List.any_eq_true]
      constructor
      · rintro ⟨kv, hkv, hp⟩
        exact List.mem_map.mpr ⟨kv, hkv, by simpa using hp⟩
      · rintro hk
        obtain ⟨kv, hkv, hp⟩ := List.mem_map.mp hk
        exact ⟨kv, hkv, by simpa using hp⟩
    by_cases hmem : skillKey skill ∈ acc.map Prod.fst
    · rw [if_pos (hkey.mpr hmem)]
      have hfst : (acc.map (fun kv =>
          if kv.1 = skillKey skill then (kv.1, kv.2 ++ [skill]) else kv)).map Prod.fst =
          acc.map Prod.fst := by
        rw [List.map_map]
        refine List.map_congr_left ?_
        intro kv _
        by_cases hkv : kv.1 = skillKey skill
        · rw [Function.comp_apply, if_pos hkv]
        · rw [Function.comp_apply, if_neg hkv]
      have hproc : ∀ k, k ∈ (processed ++ [skill]).map skillKey ↔
          k ∈ processed.map skillKey := by
        intro k
        rw [List.map_append, List.mem_append]
        constructor
        · rintro (hk | hk)
          · exact hk
          · rw [List.map_singleton, List.mem_singleton] at hk
            rw [hk]
            exact (h2 _).mp hmem
        · exact fun hk => Or.inl hk
      have := ih (acc.map (fun kv =>
          if kv.1 = skillKey skill then (kv.1, kv.2 ++ [skill]) else kv)) (processed ++ [skill])
        (by rw [hfst]; exact h1)
        (by
          intro k
          rw [hfst, hproc k]
          exact h2 k)
        (by
          intro kv' hkv'
          obtain ⟨kv, hkv, rfl⟩ := List.mem_map.mp hkv'
          by_cases hk : kv.1 = skillKey skill
          · rw [if_pos hk]
            show kv.2 ++ [skill] = (processed ++ [skill]).filter _
            rw [List.filter_append, ← h3 kv hkv]
            congr 1
            simp [hk]
          · rw [if_neg hk]
            rw [h3 kv hkv, List.filter_append]
            have : ([skill].filter (fun s => skillKey s = kv.1)) = [] := by
              simp only [List.filter_cons, List.filter_nil]
              rw [if_neg (by simp only [decide_eq_true_eq]; exact fun hc => hk hc.symm)]
            rw [this, List.append_nil])
      rw [show (processed ++ [skill]) ++ rest = processed ++ skill :: rest by simp] at this
      exact this
    · rw [if_neg (fun hc => hmem (hkey.mp hc))]
      have hfst2 : (acc ++ [(skillKey skill, [skill])]).map Prod.fst =
          acc.map Prod.fst ++ [skillKey skill] := by
        rw [List.map_append]
        rfl
      have := ih (acc ++ [(skillKey skill, [skill])]) (processed ++ [skill])
        (by
          rw [hfst2]
          refine List.Nodup.append h1 (List.nodup_singleton _) ?_
          intro x hx1 hx2
          rw [List.mem_singleton] at hx2
          rw [hx2] at hx1
          exact hmem hx1)
        (by
          intro k
          rw [hfst2, List.map_append, List.mem_append, List.mem_append, h2 k]
          rfl)
        (by
          intro kv hkv
          rcases List.mem_append.mp hkv with hold | hnew
          · have hne : skillKey skill ≠ kv.1 := by
              intro hc
              refine hmem ?_
              rw [hc]
              exact List.mem_map_of_mem Prod.fst hold
            rw [h3 kv hold, List.filter_append]
            have : ([skill].filter (fun s => skillKey s = kv.1)) = [] := by
              simp only [List.filter_cons, List.filter_nil]
              rw [if_neg (by simp [hne])]
            rw [this, List.append_nil]
          · rw [List.mem_singleton] at hnew
            rw [hnew]
            show [skill] = (processed ++ [skill]).filter _
            rw [List.filter_append]
            have hpf : (processed.filter (fun s => skillKey s = skillKey skill)) = [] := by
              rw [List.filter_eq_nil_iff]
              intro s hs hc
              simp only [decide_eq_true_eq] at hc
              refine hmem ?_
              rw [← hc]
              exact (h2 _).mpr (List.mem_map_of_mem skillKey hs)
            rw [hpf, List.nil_append]
            simp)
      rw [show (processed ++ [skill]) ++ rest = processed ++ skill :: rest by simp] at this
      exact this

theorem groupsOf_spec (skills : List SkillInfo) :
    ((groupsOf skills).map Prod.fst).Nodup ∧
    (∀ k, k ∈ (groupsOf skills).map Prod.fst ↔ k ∈ skills.map skillKey) ∧
    (∀ kv ∈ groupsOf skills, kv.2 = skills.filter (fun s => skillKey s = kv.1)) := by
  have := groupsOf_loop_spec skills [] [] (by simp) (by simp) (by simp)
  rw [List.nil_append] at this
  exact this

theorem mkGroup_facts {variants : List SkillInfo} (hne : variants ≠ []) :
    (mkGroup variants).primary ∈ variants ∧
    (∀ m ∈ variants, skillLe (mkGroup variants).primary m) ∧
    ((mkGroup variants).hasDescriptionDiff = true ↔
      ((variants.map (fun s => jsTrim s.description)).dedup).length > 1) ∧
    (mkGroup variants).variantCount = variants.length := by
  have hperm := List.perm_insertionSort skillLe variants
  have hsorted := List.sorted_insertionSort skillLe variants
  obtain ⟨p, t, hpt⟩ : ∃ p t, List.insertionSort skillLe variants = p :: t := by
    cases hs : List.insertionSort skillLe variants with
    | nil =>
      rw [hs] at hperm
      rw [List.nil_perm] at hperm
      exact absurd hperm hne
    | cons p t => exact ⟨p, t, rfl⟩
  refine ⟨?_, ?_, ?_, hperm.length_eq⟩
  · show (List.insertionSort skillLe variants).headI ∈ variants
    refine hperm.mem_iff.mp ?_
    rw [hpt]
    exact List.mem_cons_self p t
  · intro m hm
    show skillLe (List.insertionSort skillLe variants).headI m
    have hm' : m ∈ List.insertionSort skillLe variants := hperm.mem_iff.mpr hm
    rw [hpt] at hm' hsorted ⊢
    rcases List.mem_cons.mp hm' with rfl | hmt
    · exact Or.inr ⟨rfl, le_refl _⟩
    · exact (List.sorted_cons.mp hsorted).1 m hmt
  · show decide ((((List.insertionSort skillLe variants).map
        (fun s => jsTrim s.description)).dedup).length > 1) = true ↔ _
    rw [decide_eq_true_iff]
    have hlen : (((List.insertionSort skillLe variants).map
        (fun s => jsTrim s.description)).dedup).length =
        ((variants.map (fun s => jsTrim s.description)).dedup).length :=
      ((hperm.map (fun s => jsTrim s.description)).dedup).length_eq
    rw [hlen]

/-- C1: the grouping of skills produces exactly one group per distinct key
`name.trim().toLowerCase()` — the group keys are distinct, a group exists
exactly for the keys occurring among the records, and each group holds exactly
the records with its key; within each group the primary record is a member
that precedes every member in the (source identifier, path) ascending order,
the `hasDescriptionDiff` flag is true iff the number of distinct trimmed
descriptions across the members exceeds one, and `variantCount` is the number
of members. -/
theorem groupedSkills_one_group_per_key (skills : List SkillInfo) :
    ((groupsOf skills).map Prod.fst).Nodup ∧
    (∀ k, k ∈ (groupsOf skills).map Prod.fst ↔ k ∈ skills.map skillKey) ∧
    (∀ kv ∈ groupsOf skills, kv.2 = skills.filter (fun s => skillKey s = kv.1)) ∧
    groupedSkills skills = (groupsOf skills).map (fun kv => mkGroup kv.2) ∧
    (∀ kv ∈ groupsOf skills,
      (mkGroup kv.2).primary ∈ kv.2 ∧
      (∀ m ∈ kv.2, skillLe (mkGroup kv.2).primary m) ∧
      ((mkGroup kv.2).hasDescriptionDiff = true ↔
        ((kv.2.map (fun s => jsTrim s.description)).dedup).length > 1) ∧
      (mkGroup kv.2).variantCount = kv.2.length) := by
  obtain ⟨h1, h2, h3⟩ := groupsOf_spec skills
  refine ⟨h1, h2, h3, rfl, ?_⟩
  intro kv hkv
  have hne : kv.2 ≠ [] := by
    have hk : kv.1 ∈ (groupsOf skills).map Prod.fst := List.mem_map_of_mem Prod.fst hkv
    obtain ⟨s, hs, hsk⟩ := List.mem_map.mp ((h2 kv.1).mp hk)
    intro hc
    have hmem : s ∈ kv.2 := by
      rw [h3 kv hkv]
      exact List.mem_filter.mpr ⟨hs, by simp [hsk]⟩
    rw [hc] at hmem
    exact (List.not_mem_nil s) hmem
  exact mkGroup_facts hne
